import Mathlib

/-!
# CommentTree: a shallow embedding of the comment-tree engine

The development follows the three layers of the repository:

* `internal/app/domain`: the `Comment` / `CommentNode` data model, `NewComment`,
  `BuildTree` and `FilterTreeByText`;
* `internal/app`: `CommentService` over a `DbProvider`;
* `internal/web`: the status codes chosen by `CommentHandler`;
* `internal/storage/db`: the SQL statements of `Postgres`, read as functions on a table.

Library code that the repository calls but does not contain (`uuid.Parse`,
`strings.ToLower`, `strings.ToUpper`, `strconv.Atoi`), and the store's full-text match,
are taken as parameters of the definitions that use them.
-/

namespace CommentTree

/-! ## Data model (`internal/app/domain/comment_model.go`) -/

/-- The type `uuid.UUID`: sixteen bytes, read as one natural number. -/
structure UUID where
  val : Nat
deriving DecidableEq, Repr

/-- The Go `error` values that travel through the service. -/
structure Error where
  msg : String
deriving DecidableEq, Repr

/-- The struct `Comment`; `ParentID` is the nullable pointer `*uuid.UUID`. -/
structure Comment where
  ID : UUID
  Text : String
  CreatedAt : Int
  ParentID : Option UUID
deriving DecidableEq, Repr

/-- The struct `CommentNode`: an embedded `Comment` and the slice `Children`. -/
inductive CommentNode where
  | mk (comment : Comment) (children : List CommentNode)
deriving Repr

/-- The embedded `Comment` of a node. -/
def CommentNode.comment : CommentNode → Comment
  | .mk c _ => c

/-- The field `Children` of a node. -/
def CommentNode.Children : CommentNode → List CommentNode
  | .mk _ ch => ch

/-- The function `NewComment(parentid, text)`. `parse` is `uuid.Parse`, `newID` the value
of `uuid.New()` and `now` the value of `time.Now()`. The parent is parsed first, the
text is checked second, exactly as in the source. -/
def NewComment (parse : String → Except Error UUID) (newID : UUID) (now : Int)
    (parentid text : String) : Except Error Comment :=
  let parentID : Except Error (Option UUID) :=
    if parentid ≠ "" then
      match parse parentid with
      | .error err => .error err
      | .ok parentuuid => .ok (some parentuuid)
    else .ok none
  match parentID with
  | .error err => .error err
  | .ok p =>
    if text = "" then .error ⟨"text is empty"⟩
    else .ok { ID := newID, Text := text, CreatedAt := now, ParentID := p }

/-! ## Tree algebra (`internal/app/domain/comment_tree.go`) -/

/-- The `for _, c := range comments` loop of `BuildTree`. `recur` is the recursive call
`BuildTree(comments, &c.ID)`; the Go condition
`(c.ParentID == nil && parentID == nil) || (c.ParentID != nil && parentID != nil &&
*c.ParentID == *parentID)` is equality of the two optional identifiers. Selected
nodes are appended in the order of the slice. -/
def buildLoop (recur : Option UUID → Option (List CommentNode)) (parentID : Option UUID) :
    List Comment → Option (List CommentNode)
  | [] => some []
  | c :: rest =>
    if c.ParentID = parentID then
      match recur (some c.ID) with
      | none => none
      | some children =>
        match buildLoop recur parentID rest with
        | none => none
        | some result => some (CommentNode.mk c children :: result)
    else buildLoop recur parentID rest

/-- The function `BuildTree(comments, parentID)`. The Go recursion is not structural (it
recurses on the same slice with another parent), so the depth of the call stack is
bounded by `fuel`; `none` means the bound was reached. -/
def BuildTree : Nat → List Comment → Option UUID → Option (List CommentNode)
  | 0, _, _ => none
  | fuel + 1, comments, parentID => buildLoop (BuildTree fuel comments) parentID comments

/-- The function `strings.Contains(s, sub)` on the characters of the two strings. -/
def strContains (s sub : String) : Bool :=
  s.data.tails.any (fun t => sub.data.isPrefixOf t)

mutual
/-- The body of the loop of `FilterTreeByText` for one node `n`: the node is kept, with
its filtered children, when its lowered text contains the lowered query or some child
survived. `lower` is `strings.ToLower`. -/
def filterNode (lower : String → String) (text : String) : CommentNode → Option CommentNode
  | .mk c ch =>
    let filteredChildren := FilterTreeByText lower ch text
    if strContains (lower c.Text) (lower text) || decide (0 < filteredChildren.length) then
      some (CommentNode.mk c filteredChildren)
    else none
/-- The function `FilterTreeByText(nodes, text)`. -/
def FilterTreeByText (lower : String → String) : List CommentNode → String → List CommentNode
  | [], _ => []
  | n :: ns, text =>
    match filterNode lower text n with
    | some m => m :: FilterTreeByText lower ns text
    | none => FilterTreeByText lower ns text
end

mutual
/-- Every node occurrence of a tree: the node itself, then its descendants. -/
def nodeSubnodes : CommentNode → List CommentNode
  | .mk c ch => CommentNode.mk c ch :: forestSubnodes ch
/-- Every node occurrence of a forest, roots and nested children, in preorder. -/
def forestSubnodes : List CommentNode → List CommentNode
  | [] => []
  | n :: ns => nodeSubnodes n ++ forestSubnodes ns
end

mutual
/-- The comments carried by a tree, in preorder. -/
def nodeComments : CommentNode → List Comment
  | .mk c ch => c :: forestComments ch
/-- The comments carried by a forest, roots and nested children, in preorder. -/
def forestComments : List CommentNode → List Comment
  | [] => []
  | n :: ns => nodeComments n ++ forestComments ns
end

/-! ## Specification vocabulary for the tree algebra -/

/-- The ancestry chain of `c`, followed through `F`, ends at `P`: `c` is an element of `F`
whose `parent_id` is `P`, or whose `parent_id` names an element of `F` whose own chain
ends at `P`. -/
inductive ChainEndsAt (F : List Comment) (P : Option UUID) : Comment → Prop where
  | direct {c : Comment} : c ∈ F → c.ParentID = P → ChainEndsAt F P c
  | step {c d : Comment} : c ∈ F → ChainEndsAt F P d → c.ParentID = some d.ID →
      ChainEndsAt F P c

/-- The rank of an optional parent: `0` for the absent parent, one more than the rank of
the identifier otherwise. -/
def rankOpt (rank : UUID → Nat) : Option UUID → Nat
  | none => 0
  | some p => rank p + 1

/-- A bound on `rank c.ID + 1` over the elements of `F`. -/
def rankBound (rank : UUID → Nat) (F : List Comment) : Nat :=
  (F.map (fun c => rank c.ID + 1)).sum

/-- Two roots that share the identifier `1`, and a reply to that identifier. -/
def dupFlat : List Comment :=
  [⟨⟨1⟩, "first", 0, none⟩, ⟨⟨1⟩, "second", 1, none⟩, ⟨⟨2⟩, "reply", 2, some ⟨1⟩⟩]

/-- A comment that names itself as its parent. -/
def selfParentFlat : List Comment := [⟨⟨1⟩, "loop", 0, some ⟨1⟩⟩]

/-- The flat sequence of `TestBuildTree`: a root, its child, and another root. -/
def testFlat : List Comment :=
  [⟨⟨1⟩, "Root comment", 0, none⟩, ⟨⟨2⟩, "Child comment", 1, some ⟨1⟩⟩,
   ⟨⟨3⟩, "Another root comment", 2, none⟩]

/-! ## Specification vocabulary for the text filter -/

/-- The text of `c` contains the query case-insensitively: the lowered text contains the
lowered query. -/
def textMatches (lower : String → String) (q : String) (c : Comment) : Prop :=
  strContains (lower c.Text) (lower q) = true

/-- The node `n` of a forest matches the query, or is an ancestor of a node that does:
some node strictly below `n` matches. -/
def onMatchPath (lower : String → String) (q : String) (n : CommentNode) : Prop :=
  textMatches lower q n.comment ∨ ∃ d ∈ forestSubnodes n.Children, textMatches lower q d.comment

/-! ## Service orchestration (`internal/app/comment_service.go`) -/

/-- One call of a `DbProvider` method, with its arguments. -/
inductive DbCall where
  | SaveComment (text parentID : String)
  | GetComments (parentId sortAsc : String) (page pageSize : Int)
  | SearchComments (text sortAsc : String) (page pageSize : Int)
  | DeleteComments (parentId : String)
deriving DecidableEq, Repr

/-- The interface `DbProvider`. A method answers with its value or with its error; the
service reads the value only when the error is nil, so nothing is lost by `Except`. -/
structure DbProvider where
  SaveComment : String → String → Except Error Comment
  GetComments : String → String → Int → Int → Except Error (List Comment)
  SearchComments : String → String → Int → Int → Except Error (List Comment)
  DeleteComments : String → Option Error

/-- How a call that returns `([]CommentNode, error)` ends: `ok v` is `return v, nil`,
`error e` is `return nil, e`, `panic` is a run-time panic, and `exhausted` means that the
stack bound given to `BuildTree` was reached. -/
inductive Outcome (α : Type) where
  | ok (value : α)
  | error (err : Error)
  | panic
  | exhausted
deriving Repr

/-- The result of `BuildTree` as the outcome of the call that returns it. -/
def Outcome.ofBuild : Option (List CommentNode) → Outcome (List CommentNode)
  | some nodes => .ok nodes
  | none => .exhausted

/-- The method `CommentService.CreateComment`, with the provider calls it makes. -/
def CommentService.CreateComment (db : DbProvider) (text parentID : String) :
    List DbCall × Except Error Comment :=
  ([DbCall.SaveComment text parentID], db.SaveComment text parentID)

/-- The method `CommentService.GetComments`, with the provider calls it makes. `parse` is
`uuid.Parse`; the loop that looks for the row with `c.ID == pID` and breaks at the first
one is `List.find?`. -/
def CommentService.GetComments (parse : String → Except Error UUID) (db : DbProvider)
    (fuel : Nat) (parentId sortAsc : String) (page pageSize : Int) :
    List DbCall × Outcome (List CommentNode) :=
  if parentId = "" then
    match db.GetComments "" sortAsc page pageSize with
    | .error err => ([DbCall.GetComments "" sortAsc page pageSize], .error err)
    | .ok comments =>
      ([DbCall.GetComments "" sortAsc page pageSize],
        Outcome.ofBuild (BuildTree fuel comments none))
  else
    match parse parentId with
    | .error err => ([], .error err)
    | .ok pID =>
      match db.GetComments parentId sortAsc page pageSize with
      | .error err => ([DbCall.GetComments parentId sortAsc page pageSize], .error err)
      | .ok comments =>
        match comments.find? (fun c => decide (c.ID = pID)) with
        | none => ([DbCall.GetComments parentId sortAsc page pageSize], .ok [])
        | some root =>
          ([DbCall.GetComments parentId sortAsc page pageSize],
            match BuildTree fuel comments (some pID) with
            | none => .exhausted
            | some children => .ok [CommentNode.mk root children])

/-- The method `CommentService.SearchComments`, with the provider calls it makes. With an
empty parent, `comments[0]` is read without a length check: on an empty slice the index
expression panics. -/
def CommentService.SearchComments (parse : String → Except Error UUID)
    (lower : String → String) (db : DbProvider) (fuel : Nat)
    (text parentId sortAsc : String) (page pageSize : Int) :
    List DbCall × Outcome (List CommentNode) :=
  if parentId = "" then
    match db.SearchComments text sortAsc page pageSize with
    | .error err => ([DbCall.SearchComments text sortAsc page pageSize], .error err)
    | .ok comments =>
      match comments with
      | [] => ([DbCall.SearchComments text sortAsc page pageSize], .panic)
      | first :: _ =>
        ([DbCall.SearchComments text sortAsc page pageSize],
          Outcome.ofBuild (BuildTree fuel comments first.ParentID))
  else
    match CommentService.GetComments parse db fuel parentId sortAsc page pageSize with
    | (calls, .ok tree) => (calls, .ok (FilterTreeByText lower tree text))
    | (calls, .error err) => (calls, .error err)
    | (calls, .panic) => (calls, .panic)
    | (calls, .exhausted) => (calls, .exhausted)

/-- The method `CommentService.DeleteComments`, with the provider calls it makes; the
result is the returned `error`, `none` for nil. -/
def CommentService.DeleteComments (parse : String → Except Error UUID) (db : DbProvider)
    (id : String) : List DbCall × Option Error :=
  match parse id with
  | .error err => ([], some err)
  | .ok _ => ([DbCall.DeleteComments id], db.DeleteComments id)

/-! ## HTTP adapter (`internal/web/handlers.go`) -/

/-- The interface `web.CommentService` that the handler consumes. -/
structure WebCommentService where
  GetComments : String → String → Int → Int → Outcome (List CommentNode)
  SearchComments : String → String → String → Int → Int → Outcome (List CommentNode)
  DeleteComments : String → Option Error
  CreateComment : String → String → Except Error Comment

/-- The `*app.CommentService` that `main` provides as the handler's `web.CommentService`. -/
def CommentService.asWeb (parse : String → Except Error UUID) (lower : String → String)
    (db : DbProvider) (fuel : Nat) : WebCommentService where
  GetComments := fun parentId sortAsc page pageSize =>
    (CommentService.GetComments parse db fuel parentId sortAsc page pageSize).2
  SearchComments := fun text parentId sortAsc page pageSize =>
    (CommentService.SearchComments parse lower db fuel text parentId sortAsc page pageSize).2
  DeleteComments := fun id => (CommentService.DeleteComments parse db id).2
  CreateComment := fun text parentID => (CommentService.CreateComment db text parentID).2

/-- The status code written by `CommentHandler.DeleteComments` for the path parameter
`id`: `http.StatusBadRequest` for a missing id, `http.StatusServiceUnavailable` for any
error of the service, `http.StatusNoContent` otherwise. -/
def CommentHandler.DeleteComments (svc : WebCommentService) (id : String) : Nat :=
  if id = "" then 400
  else
    match svc.DeleteComments id with
    | some _ => 503
    | none => 204

/-- The status code written by `CommentHandler.GetComments` for the query parameters
`parent`, `search`, `page`, `page_size` and `sort`; `atoi` is `strconv.Atoi` with its error
dropped. `none` means that the service call did not return, so no status was written by
the handler. -/
def CommentHandler.GetComments (atoi : String → Int) (svc : WebCommentService)
    (parentId search page pageSize sort : String) : Option Nat :=
  let pageInt := atoi page
  let pageSizeInt := atoi pageSize
  let res :=
    if search = "" then svc.GetComments parentId sort pageInt pageSizeInt
    else svc.SearchComments search parentId sort pageInt pageSizeInt
  match res with
  | .error _ => some 503
  | .ok _ => some 200
  | .panic => none
  | .exhausted => none

/-! ## Identifier syntax -/

/-- The value of a hexadecimal digit. -/
def hexDigit (c : Char) : Option Nat :=
  if '0' ≤ c ∧ c ≤ '9' then some (c.toNat - 48)
  else if 'a' ≤ c ∧ c ≤ 'f' then some (c.toNat - 87)
  else if 'A' ≤ c ∧ c ≤ 'F' then some (c.toNat - 55)
  else none

/-- The value of a run of characters in which hyphens are allowed exactly at the
positions where `hyphen` is true. -/
def hexRun : List Char → List Bool → Nat → Option Nat
  | [], [], acc => some acc
  | c :: cs, true :: hs, acc => if c = '-' then hexRun cs hs acc else none
  | c :: cs, false :: hs, acc =>
    match hexDigit c with
    | some d => hexRun cs hs (16 * acc + d)
    | none => none
  | _, _, _ => none

/-- Modelled from the spec: `uuid.Parse` belongs to a library outside the repository;
the spec fixes identifiers as canonical 36-character hyphenated UUIDs, which is the form
read here (8-4-4-4-12 hexadecimal digits). Used to instantiate the `parse` parameter
at concrete strings. -/
def parseCanonical (s : String) : Except Error UUID :=
  let hyphens : List Bool :=
    (List.range 36).map (fun i => decide (i = 8 ∨ i = 13 ∨ i = 18 ∨ i = 23))
  match hexRun s.data hyphens 0 with
  | some v => .ok ⟨v⟩
  | none => .error ⟨"invalid UUID format"⟩

/-- A lowering of the ASCII letters, used to instantiate the `lower` parameter at
concrete strings. -/
def asciiLower (s : String) : String := String.mk (s.data.map Char.toLower)

/-! ## Providers and inputs used at concrete points -/

/-- A provider in the manner of the test double `MockDb`: both reads answer with the
given rows, the delete succeeds, and nothing is saved. -/
def constDb (rows : List Comment) : DbProvider where
  SaveComment := fun _ _ => .error ⟨"unavailable"⟩
  GetComments := fun _ _ _ _ => .ok rows
  SearchComments := fun _ _ _ _ => .ok rows
  DeleteComments := fun _ => none

/-- The identifier written `550e8400-e29b-41d4-a716-446655440000`. -/
def sampleID : UUID := ⟨0x550e8400e29b41d4a716446655440000⟩

/-- The page of `TestCommentService_SearchComments_WithParentID`: the root and a reply. -/
def samplePage : List Comment :=
  [⟨sampleID, "Root comment", 0, none⟩, ⟨⟨7⟩, "Child filter me", 1, some sampleID⟩]

/-- Two search matches that are not related: a root and a reply to a comment that did
not match. -/
def unrelatedMatches : List Comment :=
  [⟨⟨1⟩, "hello", 0, none⟩, ⟨⟨2⟩, "hello there", 1, some ⟨9⟩⟩]

/-! ## Persistence (`internal/storage/db/postgres.go`)

The SQL statements are read as functions on the rows of the table `comments`. The store
is taken to answer every statement; connection failures and the retry strategy are not
part of the model. -/

/-- A row of the table `comments(id, text, createdAt, parentId, status)`. -/
structure Row where
  id : UUID
  text : String
  createdAt : Int
  parentId : Option UUID
  status : String
deriving DecidableEq, Repr

/-- The columns `id, text, createdAt, parentId` scanned into a `Comment`. -/
def Row.toComment (r : Row) : Comment :=
  { ID := r.id, Text := r.text, CreatedAt := r.createdAt, ParentID := r.parentId }

/-- Go `int` arithmetic on a 64-bit platform: the result is reduced to the signed 64-bit
range. -/
def wrapInt64 (x : Int) : Int := (x + 2 ^ 63) % 2 ^ 64 - 2 ^ 63

/-- The recursive term of both common table expressions,
`SELECT c.* FROM comments c INNER JOIN tree t ON c.ParentID = t.id`, evaluated against
the working table `work`; `activeOnly` adds `WHERE c.status = 'active'`. -/
def cteStep (activeOnly : Bool) (table : List Row) (work : List Row) : List Row :=
  work.flatMap (fun t => table.filter (fun c =>
    decide (c.parentId = some t.id) && (!activeOnly || decide (c.status = "active"))))

/-- Evaluation of `WITH RECURSIVE tree AS (... UNION ALL ...)`: the working table is
appended to the result and replaced by the rows of the recursive term, until it is
empty. `fuel` bounds the number of iterations; `none` means the bound was reached. -/
def cteRun (activeOnly : Bool) (table : List Row) : Nat → List Row → Option (List Row)
  | 0, _ => none
  | fuel + 1, work =>
    if work.isEmpty then some []
    else
      match cteRun activeOnly table fuel (cteStep activeOnly table work) with
      | none => none
      | some more => some (work ++ more)

/-- The direction of an `ORDER BY`. -/
inductive Direction where
  | asc
  | desc
deriving DecidableEq, Repr

/-- The direction denoted by the keyword spliced into `ORDER BY createdAt %s`; the
keywords that reach the statements are `ASC`, `DESC`, `asc` and `desc`. -/
def sqlDirection (keyword : String) : Direction :=
  if keyword = "DESC" ∨ keyword = "desc" then .desc else .asc

/-- The clause `ORDER BY createdAt` in the given direction (rows with equal `createdAt`
keep their table order here; SQL leaves their order open). -/
def orderByCreatedAt (d : Direction) (rows : List Row) : List Row :=
  match d with
  | .asc => rows.insertionSort (fun a b => a.createdAt ≤ b.createdAt)
  | .desc => rows.insertionSort (fun a b => b.createdAt ≤ a.createdAt)

/-- The clause `LIMIT limit OFFSET offset`; the store rejects a negative offset. -/
def limitOffset (rows : List Row) (limit offset : Int) : Except Error (List Row) :=
  if offset < 0 then .error ⟨"OFFSET must not be negative"⟩
  else .ok ((rows.drop offset.toNat).take limit.toNat)

/-- The method `Postgres.GetComments` on the table `table`. `cast` is the store's reading
of the text parameter `$1` as a `uuid`, `upper` is `strings.ToUpper`, and `fuel` bounds the
recursive query. -/
def Postgres.GetComments (cast : String → Except Error UUID) (upper : String → String)
    (fuel : Nat) (table : List Row) (parentId sortAsc : String) (page pageSize : Int) :
    Option (Except Error (List Comment)) :=
  let page := if page < 1 then 1 else page
  let pageSize := if pageSize ≤ 0 then 50 else pageSize
  let offset := wrapInt64 ((page - 1) * pageSize)
  let order := upper sortAsc
  let order := if order ≠ "ASC" ∧ order ≠ "DESC" then "ASC" else order
  if parentId = "" then
    let rows := table.filter (fun r => decide (r.status = "active"))
    match limitOffset (orderByCreatedAt (sqlDirection order) rows) pageSize offset with
    | .error err => some (.error err)
    | .ok rows => some (.ok (rows.map Row.toComment))
  else
    match cast parentId with
    | .error err => some (.error err)
    | .ok root =>
      match cteRun true table fuel (table.filter (fun r => decide (r.id = root))) with
      | none => none
      | some tree =>
        match limitOffset (orderByCreatedAt (sqlDirection order) tree) pageSize offset with
        | .error err => some (.error err)
        | .ok rows => some (.ok (rows.map Row.toComment))

/-- The method `Postgres.DeleteComments` on the table `table`: the new table and the
returned error. Every row whose id is in `tree` gets `status = 'deleted'`. -/
def Postgres.DeleteComments (cast : String → Except Error UUID) (fuel : Nat)
    (table : List Row) (id : String) : Option (List Row × Option Error) :=
  match cast id with
  | .error err => some (table, some err)
  | .ok root =>
    match cteRun false table fuel (table.filter (fun r => decide (r.id = root))) with
    | none => none
    | some tree =>
      some (table.map (fun r =>
        if tree.any (fun t => decide (t.id = r.id)) then { r with status := "deleted" }
        else r), none)

/-- The row `r` of `table` is a transitive descendant of the identifier `root` through
`parent_id` links, whatever the status of the rows in between. -/
inductive IsDescendant (table : List Row) (root : UUID) : Row → Prop where
  | child {r : Row} : r ∈ table → r.parentId = some root → IsDescendant table root r
  | step {r e : Row} : r ∈ table → IsDescendant table root e → r.parentId = some e.id →
      IsDescendant table root r

/-- A bound on `rank r.id + 1` over the rows of a table. -/
def rowRankBound (rank : UUID → Nat) (table : List Row) : Nat :=
  (table.map (fun r => rank r.id + 1)).sum

/-- A table with a root, its reply that was deleted earlier, a reply to that reply, and
an unrelated root. -/
def sampleTable : List Row :=
  [⟨sampleID, "root", 0, none, "active"⟩,
   ⟨⟨sampleID.val + 1⟩, "reply", 1, some sampleID, "deleted"⟩,
   ⟨⟨sampleID.val + 2⟩, "nested", 2, some ⟨sampleID.val + 1⟩, "active"⟩,
   ⟨⟨5⟩, "other", 3, none, "active"⟩]

/-- A raising of the ASCII letters, used to instantiate the `upper` parameter at
concrete strings. -/
def asciiUpper (s : String) : String := String.mk (s.data.map Char.toUpper)

/-- The identifier `uuid.Nil`, all bytes zero. -/
def uuidNil : UUID := ⟨0⟩

/-- The `UPDATE comments SET status = 'deleted' WHERE id IN (SELECT id FROM tree)` of
`DeleteComments`, on one row. -/
def markDeleted (tree : List Row) (r : Row) : Row :=
  if tree.any (fun t => decide (t.id = r.id)) then { r with status := "deleted" } else r

/-- The `LIMIT` argument that `GetComments` and `SearchComments` compute from `pageSize`. -/
def queryLimit (pageSize : Int) : Int := if pageSize ≤ 0 then 50 else pageSize

/-- The `OFFSET` argument that `GetComments` and `SearchComments` compute:
`offset := (page - 1) * pageSize` after both defaults, in Go `int` arithmetic. -/
def queryOffset (page pageSize : Int) : Int :=
  let page := if page < 1 then 1 else page
  let pageSize := if pageSize ≤ 0 then 50 else pageSize
  wrapInt64 ((page - 1) * pageSize)

/-- The keyword that `GetComments` splices into `ORDER BY createdAt %s`. -/
def fetchOrder (upper : String → String) (sortAsc : String) : String :=
  let order := upper sortAsc
  if order ≠ "ASC" ∧ order ≠ "DESC" then "ASC" else order

/-- The keyword that `SearchComments` splices into `ORDER BY createdAt %s`. -/
def searchOrder (lower : String → String) (sortAsc : String) : String :=
  let order := lower sortAsc
  if order ≠ "asc" ∧ order ≠ "desc" then "ASC" else order

/-- The two statements of `GetComments`, run with a given direction, `LIMIT` and `OFFSET`. -/
def fetchQuery (cast : String → Except Error UUID) (fuel : Nat) (table : List Row)
    (parentId : String) (d : Direction) (limit offset : Int) :
    Option (Except Error (List Comment)) :=
  if parentId = "" then
    let rows := table.filter (fun r => decide (r.status = "active"))
    match limitOffset (orderByCreatedAt d rows) limit offset with
    | .error err => some (.error err)
    | .ok rows => some (.ok (rows.map Row.toComment))
  else
    match cast parentId with
    | .error err => some (.error err)
    | .ok root =>
      match cteRun true table fuel (table.filter (fun r => decide (r.id = root))) with
      | none => none
      | some tree =>
        match limitOffset (orderByCreatedAt d tree) limit offset with
        | .error err => some (.error err)
        | .ok rows => some (.ok (rows.map Row.toComment))

/-- The statement of `SearchComments`, run with a given direction, `LIMIT` and `OFFSET`;
`tsMatch rowText query` is
`to_tsvector('simple', text) @@ plainto_tsquery('simple', $1)`. -/
def searchQuery (tsMatch : String → String → Bool) (table : List Row) (text : String)
    (d : Direction) (limit offset : Int) : Except Error (List Comment) :=
  let rows := table.filter (fun r => decide (r.status = "active") && tsMatch r.text text)
  match limitOffset (orderByCreatedAt d rows) limit offset with
  | .error err => .error err
  | .ok rows => .ok (rows.map Row.toComment)

/-- The method `Postgres.SearchComments` on the table `table`; `lower` is
`strings.ToLower`. -/
def Postgres.SearchComments (lower : String → String) (tsMatch : String → String → Bool)
    (table : List Row) (text sortAsc : String) (page pageSize : Int) :
    Except Error (List Comment) :=
  let page := if page < 1 then 1 else page
  let pageSize := if pageSize ≤ 0 then 50 else pageSize
  let offset := wrapInt64 ((page - 1) * pageSize)
  let order := lower sortAsc
  let order := if order ≠ "asc" ∧ order ≠ "desc" then "ASC" else order
  let rows := table.filter (fun r => decide (r.status = "active") && tsMatch r.text text)
  match limitOffset (orderByCreatedAt (sqlDirection order) rows) pageSize offset with
  | .error err => .error err
  | .ok rows => .ok (rows.map Row.toComment)

/-- The order parameter `de` + U+017F (LATIN SMALL LETTER LONG S) + `c`. -/
def longSDesc : String := String.mk ['d', 'e', Char.ofNat 0x17F, 'c']

/-- Unicode's simple upper-case mapping on the ASCII letters and on U+017F, whose upper
case is `S`; used to instantiate the `upper` parameter at concrete strings. -/
def simpleUpper (s : String) : String :=
  String.mk (s.data.map (fun c => if c = Char.ofNat 0x17F then 'S' else c.toUpper))

/-- Modelled from the spec: `uuid.New()` belongs to a library outside the repository; the
spec says that the id is a 128-bit UUID generated at creation. The generated identifier
is a random (version 4, RFC 4122) UUID: the sixteen bytes read from the random source,
given here as one big-endian number, with the high nibble of byte 6 set to `4` and the
two high bits of byte 8 set to `10`. A failing random source, on which `uuid.New()`
panics, is outside the model. -/
def uuidNew (random : Nat) : UUID :=
  let r := random % 2 ^ 128
  ⟨(r / 2 ^ 80) * 2 ^ 80 + (0x40 + (r / 2 ^ 72) % 16) * 2 ^ 72 + ((r / 2 ^ 64) % 256) * 2 ^ 64 +
    (0x80 + (r / 2 ^ 56) % 64) * 2 ^ 56 + r % 2 ^ 56⟩

/-- A page on which the parent lookup finds the root after another row: a reply, the
root, and a reply to the reply. -/
def threadPage : List Comment :=
  [⟨⟨7⟩, "Child filter me", 1, some sampleID⟩, ⟨sampleID, "Root comment", 0, none⟩,
   ⟨⟨8⟩, "Grandchild", 2, some ⟨7⟩⟩]

/-! ## Theorems -/

/-! ### `BuildTree` -/

theorem buildLoop_mono {r r' : Option UUID → Option (List CommentNode)}
    (h : ∀ q T, r q = some T → r' q = some T) (P : Option UUID) :
    ∀ (cs : List Comment) (T : List CommentNode),
      buildLoop r P cs = some T → buildLoop r' P cs = some T := by
  intro cs
  induction cs with
  | nil => intro T hT; simpa [buildLoop] using hT
  | cons c rest ih =>
    intro T hT
    simp only [buildLoop] at hT ⊢
    split_ifs at hT ⊢ with hc
    · cases hr : r (some c.ID) with
      | none => simp [hr] at hT
      | some ch =>
        rw [hr] at hT
        rw [h _ _ hr]
        cases hl : buildLoop r P rest with
        | none => simp [hl] at hT
        | some res =>
          rw [hl] at hT
          rw [ih _ hl]
          exact hT
    · exact ih _ hT

theorem BuildTree_succ (F : List Comment) :
    ∀ (fuel : Nat) (P : Option UUID) (T : List CommentNode),
      BuildTree fuel F P = some T → BuildTree (fuel + 1) F P = some T := by
  intro fuel
  induction fuel with
  | zero => intro P T h; simp [BuildTree] at h
  | succ n ih =>
    intro P T h
    rw [BuildTree] at h ⊢
    exact buildLoop_mono (fun q T hq => ih q T hq) P F T h

theorem BuildTree_fuel_mono (F : List Comment) (P : Option UUID) (T : List CommentNode)
    (n : Nat) (h : BuildTree n F P = some T) :
    ∀ fuel, n ≤ fuel → BuildTree fuel F P = some T := by
  intro fuel hle
  induction hle with
  | refl => exact h
  | step _ ih => exact BuildTree_succ F _ P T ih

theorem buildLoop_eq_of_isSome (r : Option UUID → Option (List CommentNode))
    (P : Option UUID) :
    ∀ cs : List Comment,
      (∀ c ∈ cs, c.ParentID = P → (r (some c.ID)).isSome) →
      buildLoop r P cs =
        some ((cs.filter (fun c => decide (c.ParentID = P))).map
          (fun c => CommentNode.mk c ((r (some c.ID)).getD []))) := by
  intro cs
  induction cs with
  | nil => intro _; simp [buildLoop]
  | cons c rest ih =>
    intro h
    have ih' := ih (fun d hd hp => h d (List.mem_cons_of_mem _ hd) hp)
    simp only [buildLoop]
    by_cases hc : c.ParentID = P
    · have hs := h c (List.mem_cons_self _ _) hc
      obtain ⟨ch, hch⟩ := Option.isSome_iff_exists.mp hs
      simp [hc, hch, ih']
    · simp [hc, ih']

theorem forestComments_map_mk (ch : Comment → List CommentNode) :
    ∀ l : List Comment,
      forestComments (l.map (fun c => CommentNode.mk c (ch c))) =
        l.flatMap (fun c => c :: forestComments (ch c)) := by
  intro l
  induction l with
  | nil => simp [forestComments]
  | cons c rest ih => simp [forestComments, nodeComments, ih]

theorem ChainEndsAt.mem {F : List Comment} {P : Option UUID} {c : Comment}
    (h : ChainEndsAt F P c) : c ∈ F := by
  cases h with
  | direct hm _ => exact hm
  | step hm _ _ => exact hm

theorem chain_unfold_root (F : List Comment) (P : Option UUID) (x : Comment) :
    ChainEndsAt F P x ↔
      ∃ c ∈ F, c.ParentID = P ∧ (x = c ∨ ChainEndsAt F (some c.ID) x) := by
  constructor
  · intro h
    induction h with
    | direct hm hp => exact ⟨_, hm, hp, Or.inl rfl⟩
    | step hm _ hp ih =>
      obtain ⟨r, hr, hrp, hor⟩ := ih
      refine ⟨r, hr, hrp, Or.inr ?_⟩
      rcases hor with hd | hd
      · subst hd
        exact ChainEndsAt.direct hm hp
      · exact ChainEndsAt.step hm hd hp
  · rintro ⟨r, hr, hrp, hor⟩
    rcases hor with hx | hx
    · subst hx
      exact ChainEndsAt.direct hr hrp
    · induction hx with
      | direct hm hp => exact ChainEndsAt.step hm (ChainEndsAt.direct hr hrp) hp
      | step hm _ hp ih => exact ChainEndsAt.step hm ih hp

theorem chain_rank_lt {F : List Comment} {rank : UUID → Nat}
    (hacyc : ∀ c ∈ F, ∀ p, c.ParentID = some p → rank p < rank c.ID)
    {p : UUID} {x : Comment} (h : ChainEndsAt F (some p) x) : rank p < rank x.ID := by
  induction h with
  | direct hm hp => exact hacyc _ hm _ hp
  | step hm _ hp ih => exact lt_trans ih (hacyc _ hm _ hp)

theorem eq_of_ID_eq {F : List Comment} (hid : (F.map Comment.ID).Nodup)
    {a b : Comment} (ha : a ∈ F) (hb : b ∈ F) (h : a.ID = b.ID) : a = b :=
  List.inj_on_of_nodup_map hid ha hb h

/-- Two elements with the same parent are never in each other's subtree. -/
theorem sibling_not_below {F : List Comment} {rank : UUID → Nat}
    (hacyc : ∀ c ∈ F, ∀ p, c.ParentID = some p → rank p < rank c.ID)
    {P : Option UUID} {c e : Comment} (hc : c ∈ F) (hcp : c.ParentID = P)
    (hep : e.ParentID = P) : ¬ ChainEndsAt F (some c.ID) e := by
  intro h
  cases h with
  | direct _ hp =>
    have h1 : c.ParentID = some c.ID := by rw [hcp, ← hep, hp]
    exact absurd (hacyc c hc _ h1) (lt_irrefl _)
  | @step _ d _ hd hp =>
    have h1 : c.ParentID = some d.ID := by rw [hcp, ← hep, hp]
    have h2 := hacyc c hc _ h1
    have h3 := chain_rank_lt hacyc hd
    exact absurd (lt_trans h2 h3) (lt_irrefl _)

/-- The ancestors of an element are linearly ordered: when the chain of `x` passes
through `a` and through `b`, either `a = b`, or the element `a` lies below `b`, or the
element `b` lies below `a`. -/
theorem chain_comparable {F : List Comment} (hid : (F.map Comment.ID).Nodup)
    {a b : UUID} {x : Comment} (ha : ChainEndsAt F (some a) x) :
    ChainEndsAt F (some b) x →
      a = b ∨ (∃ e ∈ F, e.ID = a ∧ ChainEndsAt F (some b) e) ∨
        (∃ e ∈ F, e.ID = b ∧ ChainEndsAt F (some a) e) := by
  induction ha with
  | direct hm hp =>
    intro hb
    cases hb with
    | direct _ hp2 =>
      left
      rw [hp] at hp2
      exact Option.some.inj hp2
    | @step _ d _ hd hp2 =>
      right; left
      rw [hp] at hp2
      exact ⟨d, hd.mem, (Option.some.inj hp2).symm, hd⟩
  | @step y d hm hd hp ih =>
    intro hb
    cases hb with
    | direct _ hp2 =>
      right; right
      rw [hp] at hp2
      exact ⟨d, hd.mem, Option.some.inj hp2, hd⟩
    | @step _ d2 _ hd2 hp2 =>
      rw [hp] at hp2
      have hdd : d = d2 := eq_of_ID_eq hid hd.mem hd2.mem (Option.some.inj hp2)
      subst hdd
      exact ih hd2

theorem le_rankBound (rank : UUID → Nat) :
    ∀ (F : List Comment) (c : Comment), c ∈ F → rank c.ID + 1 ≤ rankBound rank F := by
  intro F
  induction F with
  | nil => intro c hc; simp at hc
  | cons a rest ih =>
    intro c hc
    simp only [rankBound, List.map_cons, List.sum_cons]
    rcases List.mem_cons.mp hc with h | h
    · subst h; omega
    · have := ih c h
      simp only [rankBound] at this
      omega

theorem rankOpt_lt_child {F : List Comment} {rank : UUID → Nat}
    (hacyc : ∀ c ∈ F, ∀ p, c.ParentID = some p → rank p < rank c.ID)
    {P : Option UUID} {c : Comment} (hc : c ∈ F) (hp : c.ParentID = P) :
    rankOpt rank P < rank c.ID + 1 := by
  cases P with
  | none => simp [rankOpt]
  | some p =>
    have := hacyc c hc p hp
    simp only [rankOpt]
    omega

/-- One level of `BuildTree`: when every recursive call on a selected comment returns
the exact subtree below that comment, the loop returns the exact forest below `P`. -/
theorem buildLoop_exact {F : List Comment} {rank : UUID → Nat}
    (hid : (F.map Comment.ID).Nodup)
    (hacyc : ∀ c ∈ F, ∀ p, c.ParentID = some p → rank p < rank c.ID)
    (r : Option UUID → Option (List CommentNode)) (P : Option UUID)
    (hrec : ∀ c ∈ F, c.ParentID = P → ∃ T, r (some c.ID) = some T ∧
      (forestComments T).Nodup ∧ ∀ x, x ∈ forestComments T ↔ ChainEndsAt F (some c.ID) x) :
    ∃ T, buildLoop r P F = some T ∧ (forestComments T).Nodup ∧
      ∀ x, x ∈ forestComments T ↔ ChainEndsAt F P x := by
  have hsome : ∀ c ∈ F, c.ParentID = P → (r (some c.ID)).isSome := by
    intro c hc hp
    obtain ⟨T, hT, _⟩ := hrec c hc hp
    simp [hT]
  have hget : ∀ c ∈ F, c.ParentID = P →
      (forestComments ((r (some c.ID)).getD [])).Nodup ∧
      ∀ x, x ∈ forestComments ((r (some c.ID)).getD []) ↔ ChainEndsAt F (some c.ID) x := by
    intro c hc hp
    obtain ⟨T, hT, h1, h2⟩ := hrec c hc hp
    simp only [hT, Option.getD_some]
    exact ⟨h1, h2⟩
  refine ⟨_, buildLoop_eq_of_isSome r P F hsome, ?_, ?_⟩
  · rw [forestComments_map_mk]
    rw [List.nodup_flatMap]
    constructor
    · intro c hc
      have hcF : c ∈ F := (List.mem_filter.mp hc).1
      have hcp : c.ParentID = P := by simpa using (List.mem_filter.mp hc).2
      rw [List.nodup_cons]
      refine ⟨?_, (hget c hcF hcp).1⟩
      intro hmem
      exact sibling_not_below hacyc hcF hcp hcp (((hget c hcF hcp).2 c).mp hmem)
    · have hnd : (F.filter (fun c => decide (c.ParentID = P))).Nodup :=
        (List.Nodup.of_map _ hid).filter _
      refine List.Pairwise.imp_of_mem ?_ hnd
      intro c1 c2 h1 h2 hne
      have h1F : c1 ∈ F := (List.mem_filter.mp h1).1
      have h1p : c1.ParentID = P := by simpa using (List.mem_filter.mp h1).2
      have h2F : c2 ∈ F := (List.mem_filter.mp h2).1
      have h2p : c2.ParentID = P := by simpa using (List.mem_filter.mp h2).2
      simp only [Function.onFun]
      rw [List.disjoint_left]
      intro x hx1 hx2
      rcases List.mem_cons.mp hx1 with e1 | e1 <;> rcases List.mem_cons.mp hx2 with e2 | e2
      · exact hne (e1.symm.trans e2)
      · subst e1
        exact sibling_not_below hacyc h2F h2p h1p (((hget c2 h2F h2p).2 x).mp e2)
      · subst e2
        exact sibling_not_below hacyc h1F h1p h2p (((hget c1 h1F h1p).2 x).mp e1)
      · have k1 := ((hget c1 h1F h1p).2 x).mp e1
        have k2 := ((hget c2 h2F h2p).2 x).mp e2
        rcases chain_comparable hid k1 k2 with h | ⟨e, he, hei, hch⟩ | ⟨e, he, hei, hch⟩
        · exact hne (eq_of_ID_eq hid h1F h2F h)
        · have : e = c1 := eq_of_ID_eq hid he h1F hei
          subst this
          exact sibling_not_below hacyc h2F h2p h1p hch
        · have : e = c2 := eq_of_ID_eq hid he h2F hei
          subst this
          exact sibling_not_below hacyc h1F h1p h2p hch
  · intro x
    rw [forestComments_map_mk, chain_unfold_root, List.mem_flatMap]
    constructor
    · rintro ⟨c, hc, hx⟩
      have hcF : c ∈ F := (List.mem_filter.mp hc).1
      have hcp : c.ParentID = P := by simpa using (List.mem_filter.mp hc).2
      refine ⟨c, hcF, hcp, ?_⟩
      rcases List.mem_cons.mp hx with h | h
      · exact Or.inl h
      · exact Or.inr (((hget c hcF hcp).2 x).mp h)
    · rintro ⟨c, hcF, hcp, hor⟩
      refine ⟨c, List.mem_filter.mpr ⟨hcF, by simpa using hcp⟩, ?_⟩
      rcases hor with h | h
      · exact List.mem_cons.mpr (Or.inl h)
      · exact List.mem_cons.mpr (Or.inr (((hget c hcF hcp).2 x).mpr h))

theorem BuildTree_exact_aux {F : List Comment} {rank : UUID → Nat}
    (hid : (F.map Comment.ID).Nodup)
    (hacyc : ∀ c ∈ F, ∀ p, c.ParentID = some p → rank p < rank c.ID) :
    ∀ (k : Nat) (P : Option UUID), rankBound rank F ≤ rankOpt rank P + k →
      ∃ T, BuildTree (k + 1) F P = some T ∧ (forestComments T).Nodup ∧
        ∀ x, x ∈ forestComments T ↔ ChainEndsAt F P x := by
  intro k
  induction k with
  | zero =>
    intro P hP
    rw [BuildTree]
    apply buildLoop_exact hid hacyc
    intro c hc hp
    have h1 := rankOpt_lt_child hacyc hc hp
    have h2 := le_rankBound rank F c hc
    omega
  | succ k ih =>
    intro P hP
    rw [BuildTree]
    apply buildLoop_exact hid hacyc
    intro c hc hp
    have h1 := rankOpt_lt_child hacyc hc hp
    apply ih (some c.ID)
    simp only [rankOpt]
    omega

theorem BuildTree_selfParent_none :
    ∀ fuel : Nat, BuildTree fuel selfParentFlat (some ⟨1⟩) = none := by
  intro fuel
  induction fuel with
  | zero => rfl
  | succ n ih =>
    rw [BuildTree]
    simp [selfParentFlat, buildLoop] at ih ⊢
    simp [ih]

/-- C1, as stated, fails. With two elements sharing an identifier, the reply to that
identifier is an element of `F` whose chain ends at the absent parent, yet it occurs
twice in `BuildTree(F, nil)`. With an element that is its own parent, the element's
chain ends at `P`, yet `BuildTree(F, P)` exhausts every stack bound and returns no
forest. -/
theorem BuildTree_every_sequence_counterexample :
    (ChainEndsAt dupFlat none ⟨⟨2⟩, "reply", 2, some ⟨1⟩⟩ ∧
      ∃ T, BuildTree 3 dupFlat none = some T ∧
        (forestComments T).count ⟨⟨2⟩, "reply", 2, some ⟨1⟩⟩ = 2) ∧
    (ChainEndsAt selfParentFlat (some ⟨1⟩) ⟨⟨1⟩, "loop", 0, some ⟨1⟩⟩ ∧
      ∀ fuel : Nat, BuildTree fuel selfParentFlat (some ⟨1⟩) = none) := by
  refine ⟨⟨?_, ?_⟩, ?_, BuildTree_selfParent_none⟩
  · exact ChainEndsAt.step (d := ⟨⟨1⟩, "first", 0, none⟩) (by simp [dupFlat])
      (ChainEndsAt.direct (by simp [dupFlat]) rfl) rfl
  · exact ⟨_, rfl, by decide⟩
  · exact ChainEndsAt.direct (by simp [selfParentFlat]) rfl

/-- C1 (amended): for every flat sequence `F` whose identifiers are pairwise distinct and
whose parent links are acyclic (some rank strictly increases from every parent to its
child), and every parent `P`, `BuildTree(F, P)` returns a forest `T` for every
sufficiently large stack bound; the comments occurring anywhere in `T` are exactly
the elements of `F` whose ancestry chain through `F` ends at `P`, and each occurs
exactly once. -/
theorem BuildTree_nodes_exact (F : List Comment) (P : Option UUID) (rank : UUID → Nat)
    (hid : (F.map Comment.ID).Nodup)
    (hacyc : ∀ c ∈ F, ∀ p, c.ParentID = some p → rank p < rank c.ID) :
    ∃ T, (∀ fuel, rankBound rank F + 1 ≤ fuel → BuildTree fuel F P = some T) ∧
      (forestComments T).Nodup ∧ ∀ c, c ∈ forestComments T ↔ ChainEndsAt F P c := by
  obtain ⟨T, hT, hnd, hmem⟩ :=
    BuildTree_exact_aux hid hacyc (rankBound rank F) P (Nat.le_add_left _ _)
  exact ⟨T, BuildTree_fuel_mono F P T _ hT, hnd, hmem⟩

/-- C1 (amended), at the flat sequence of `TestBuildTree` with the absent parent. -/
theorem BuildTree_nodes_exact_witness :
    (testFlat.map Comment.ID).Nodup ∧
    (∀ c ∈ testFlat, ∀ p, c.ParentID = some p → UUID.val p < UUID.val c.ID) ∧
    ∃ T, (∀ fuel, rankBound UUID.val testFlat + 1 ≤ fuel →
        BuildTree fuel testFlat none = some T) ∧
      (forestComments T).Nodup ∧ ∀ c, c ∈ forestComments T ↔ ChainEndsAt testFlat none c :=
  have hacyc : ∀ c ∈ testFlat, ∀ p, c.ParentID = some p → UUID.val p < UUID.val c.ID := by
    intro c hc p hp
    simp only [testFlat, List.mem_cons, List.mem_singleton, List.not_mem_nil, or_false] at hc
    rcases hc with h | h | h <;> subst h <;> simp at hp
    subst hp
    decide
  ⟨by decide, hacyc, BuildTree_nodes_exact testFlat none UUID.val (by decide) hacyc⟩

/-! ### `FilterTreeByText` -/

mutual
theorem filterNode_isSome_iff (lower : String → String) (q : String) :
    ∀ n : CommentNode, (filterNode lower q n).isSome ↔
      ∃ d ∈ nodeSubnodes n, textMatches lower q d.comment
  | .mk c ch => by
    have ih := filter_pos_iff lower q ch
    simp only [filterNode, nodeSubnodes]
    rw [List.exists_mem_cons_iff, ← ih]
    by_cases h : strContains (lower c.Text) (lower q) = true <;>
      by_cases h2 : 0 < (FilterTreeByText lower ch q).length <;>
      simp [h, h2, textMatches, CommentNode.comment]
theorem filter_pos_iff (lower : String → String) (q : String) :
    ∀ T : List CommentNode, 0 < (FilterTreeByText lower T q).length ↔
      ∃ d ∈ forestSubnodes T, textMatches lower q d.comment
  | [] => by simp [FilterTreeByText, forestSubnodes]
  | n :: ns => by
    have ih1 := filterNode_isSome_iff lower q n
    have ih2 := filter_pos_iff lower q ns
    simp only [FilterTreeByText, forestSubnodes, List.mem_append]
    cases hf : filterNode lower q n with
    | none =>
      rw [hf] at ih1
      simp only [Option.isSome_none, Bool.false_eq_true, false_iff, not_exists, not_and] at ih1
      rw [ih2]
      constructor
      · rintro ⟨d, hd, hm⟩; exact ⟨d, Or.inr hd, hm⟩
      · rintro ⟨d, hd | hd, hm⟩
        · exact absurd hm (ih1 d hd)
        · exact ⟨d, hd, hm⟩
    | some m =>
      rw [hf] at ih1
      simp only [Option.isSome_some, true_iff] at ih1
      obtain ⟨d, hd, hm⟩ := ih1
      simp only [List.length_cons, Nat.zero_lt_succ, true_iff]
      exact ⟨d, Or.inl hd, hm⟩
end

theorem forestComments_append :
    ∀ a b : List CommentNode, forestComments (a ++ b) = forestComments a ++ forestComments b
  | [], b => by simp [forestComments]
  | n :: ns, b => by simp [forestComments, forestComments_append ns b]

theorem FilterTreeByText_cons (lower : String → String) (q : String) (n : CommentNode)
    (ns : List CommentNode) :
    FilterTreeByText lower (n :: ns) q =
      (filterNode lower q n).toList ++ FilterTreeByText lower ns q := by
  rw [FilterTreeByText]
  cases filterNode lower q n <;> simp

mutual
theorem mem_comments_filterNode (lower : String → String) (q : String) (x : Comment) :
    ∀ n : CommentNode, x ∈ forestComments (filterNode lower q n).toList ↔
      ∃ d ∈ nodeSubnodes n, d.comment = x ∧ onMatchPath lower q d
  | .mk c ch => by
    have ih := mem_comments_filter lower q x ch
    have hpos := filter_pos_iff lower q ch
    simp only [nodeSubnodes, List.exists_mem_cons_iff]
    by_cases hk : onMatchPath lower q (CommentNode.mk c ch)
    · have hs : filterNode lower q (CommentNode.mk c ch) =
          some (CommentNode.mk c (FilterTreeByText lower ch q)) := by
        simp only [filterNode]
        rcases hk with h | h
        · simp [textMatches, CommentNode.comment] at h
          simp [h]
        · have := hpos.mpr h
          simp [this]
      rw [hs]
      simp only [Option.toList_some, forestComments, nodeComments, List.append_nil,
        List.mem_cons, ih, CommentNode.comment, hk, and_true]
      constructor
      · rintro (h | h)
        · exact Or.inl h.symm
        · exact Or.inr h
      · rintro (h | h)
        · exact Or.inl h.symm
        · exact Or.inr h
    · have hs : filterNode lower q (CommentNode.mk c ch) = none := by
        simp only [filterNode]
        have h1 : ¬ strContains (lower c.Text) (lower q) = true := fun h => hk (Or.inl h)
        have h2 : ¬ 0 < (FilterTreeByText lower ch q).length :=
          fun h => hk (Or.inr (hpos.mp h))
        simp [h1, h2]
      rw [hs]
      simp only [Option.toList_none, forestComments, List.not_mem_nil, false_iff]
      rintro (⟨_, h⟩ | h)
      · exact hk h
      · have hx := ih.mpr h
        have hlen : 0 < (FilterTreeByText lower ch q).length := by
          cases hF : FilterTreeByText lower ch q with
          | nil => rw [hF] at hx; simp [forestComments] at hx
          | cons a b => simp
        exact hk (Or.inr (hpos.mp hlen))
theorem mem_comments_filter (lower : String → String) (q : String) (x : Comment) :
    ∀ T : List CommentNode, x ∈ forestComments (FilterTreeByText lower T q) ↔
      ∃ d ∈ forestSubnodes T, d.comment = x ∧ onMatchPath lower q d
  | [] => by simp [FilterTreeByText, forestSubnodes, forestComments]
  | n :: ns => by
    have ih1 := mem_comments_filterNode lower q x n
    have ih2 := mem_comments_filter lower q x ns
    rw [FilterTreeByText_cons, forestComments_append, List.mem_append, ih1, ih2]
    simp only [forestSubnodes, List.mem_append]
    constructor
    · rintro (⟨d, hd, h⟩ | ⟨d, hd, h⟩)
      · exact ⟨d, Or.inl hd, h⟩
      · exact ⟨d, Or.inr hd, h⟩
    · rintro ⟨d, hd | hd, h⟩
      · exact Or.inl ⟨d, hd, h⟩
      · exact Or.inr ⟨d, hd, h⟩
end

/-- C2: for every forest `T` and query `q`, a comment occurs in `FilterTreeByText(T, q)`
exactly when it is carried by a node of `T` whose text contains `q` case-insensitively
or which has such a node below it (it is an ancestor within `T` of a match); and the
result is empty exactly when no node of `T` contains `q`. -/
theorem FilterTreeByText_nodes (lower : String → String) (T : List CommentNode) (q : String) :
    (∀ x, x ∈ forestComments (FilterTreeByText lower T q) ↔
      ∃ n ∈ forestSubnodes T, n.comment = x ∧
        (textMatches lower q n.comment ∨
          ∃ d ∈ forestSubnodes n.Children, textMatches lower q d.comment)) ∧
    (FilterTreeByText lower T q = [] ↔
      ∀ n ∈ forestSubnodes T, ¬ textMatches lower q n.comment) := by
  refine ⟨fun x => mem_comments_filter lower q x T, ?_⟩
  have hpos := filter_pos_iff lower q T
  constructor
  · intro hF n hn hm
    rw [hF] at hpos
    exact absurd (hpos.mpr ⟨n, hn, hm⟩) (by simp)
  · intro hno
    cases hF : FilterTreeByText lower T q with
    | nil => rfl
    | cons a b =>
      rw [hF] at hpos
      obtain ⟨d, hd, hm⟩ := hpos.mp (by simp)
      exact absurd hm (hno d hd)

/-! ### `CommentService` -/

theorem GetComments_calls (parse : String → Except Error UUID) (db : DbProvider)
    (fuel : Nat) (parentId sortAsc : String) (page pageSize : Int) :
    (CommentService.GetComments parse db fuel parentId sortAsc page pageSize).1 = [] ∨
    (CommentService.GetComments parse db fuel parentId sortAsc page pageSize).1 =
      [DbCall.GetComments parentId sortAsc page pageSize] := by
  unfold CommentService.GetComments
  by_cases h : parentId = ""
  · subst h
    cases db.GetComments "" sortAsc page pageSize <;> simp
  · simp only [h, if_false]
    cases parse parentId with
    | error e => simp
    | ok p =>
      cases hdb : db.GetComments parentId sortAsc page pageSize with
      | error e => simp
      | ok pg =>
        cases hf : pg.find? (fun c => decide (c.ID = p)) <;> simp [hf]

/-- C4: for every non-empty parent string, `CommentService.SearchComments(q, parent, ...)`
is `FilterTreeByText(GetComments(parent, ...), q)` when `GetComments` succeeds and is
`GetComments`' error, with no forest, when it fails; the provider calls are those of
`GetComments`, and the provider's `SearchComments` is not among them. -/
theorem SearchComments_with_parent (parse : String → Except Error UUID)
    (lower : String → String) (db : DbProvider) (fuel : Nat)
    (text parentId sortAsc : String) (page pageSize : Int) (hparent : parentId ≠ "") :
    (∀ tree, (CommentService.GetComments parse db fuel parentId sortAsc page pageSize).2 =
        .ok tree →
      (CommentService.SearchComments parse lower db fuel text parentId sortAsc page
        pageSize).2 = .ok (FilterTreeByText lower tree text)) ∧
    (∀ e, (CommentService.GetComments parse db fuel parentId sortAsc page pageSize).2 =
        .error e →
      (CommentService.SearchComments parse lower db fuel text parentId sortAsc page
        pageSize).2 = .error e) ∧
    (CommentService.SearchComments parse lower db fuel text parentId sortAsc page
        pageSize).1 =
      (CommentService.GetComments parse db fuel parentId sortAsc page pageSize).1 ∧
    (∀ t s pg ps, DbCall.SearchComments t s pg ps ∉
      (CommentService.SearchComments parse lower db fuel text parentId sortAsc page
        pageSize).1) := by
  have hcalls : (CommentService.SearchComments parse lower db fuel text parentId sortAsc page
        pageSize).1 =
      (CommentService.GetComments parse db fuel parentId sortAsc page pageSize).1 := by
    simp only [CommentService.SearchComments, hparent, if_false]
    rcases hg : CommentService.GetComments parse db fuel parentId sortAsc page pageSize with
      ⟨calls, res⟩
    cases res <;> rfl
  refine ⟨?_, ?_, hcalls, ?_⟩
  · intro tree hg
    simp only [CommentService.SearchComments, hparent, if_false]
    rcases hg2 : CommentService.GetComments parse db fuel parentId sortAsc page pageSize with
      ⟨calls, res⟩
    rw [hg2] at hg
    simp only at hg
    subst hg
    rfl
  · intro e hg
    simp only [CommentService.SearchComments, hparent, if_false]
    rcases hg2 : CommentService.GetComments parse db fuel parentId sortAsc page pageSize with
      ⟨calls, res⟩
    rw [hg2] at hg
    simp only at hg
    subst hg
    rfl
  · intro t s pg ps hmem
    rw [hcalls] at hmem
    rcases GetComments_calls parse db fuel parentId sortAsc page pageSize with h | h
    · rw [h] at hmem
      simp at hmem
    · rw [h] at hmem
      simp at hmem

/-- C4, at the call of `TestCommentService_SearchComments_WithParentID`: the root is kept
because its reply matches `filter`. -/
theorem SearchComments_with_parent_witness :
    ("550e8400-e29b-41d4-a716-446655440000" ≠ "") ∧
    (CommentService.SearchComments parseCanonical asciiLower (constDb samplePage) 3 "filter"
        "550e8400-e29b-41d4-a716-446655440000" "asc" 1 10).2 =
      .ok [CommentNode.mk ⟨sampleID, "Root comment", 0, none⟩
        [CommentNode.mk ⟨⟨7⟩, "Child filter me", 1, some sampleID⟩ []]] :=
  ⟨by decide,
    (SearchComments_with_parent parseCanonical asciiLower (constDb samplePage) 3 "filter"
      "550e8400-e29b-41d4-a716-446655440000" "asc" 1 10 (by decide)).1
      [CommentNode.mk ⟨sampleID, "Root comment", 0, none⟩
        [CommentNode.mk ⟨⟨7⟩, "Child filter me", 1, some sampleID⟩ []]] rfl⟩

/-- C6 fails on the code: when the provider's search returns an empty list and no error,
`SearchComments` with an empty parent string evaluates `comments[0]` and panics; it
returns neither a forest nor an error. -/
theorem SearchComments_empty_result_panics (parse : String → Except Error UUID)
    (lower : String → String) (db : DbProvider) (fuel : Nat)
    (text sortAsc : String) (page pageSize : Int)
    (hempty : db.SearchComments text sortAsc page pageSize = .ok []) :
    (CommentService.SearchComments parse lower db fuel text "" sortAsc page pageSize).2 =
      Outcome.panic := by
  simp [CommentService.SearchComments, hempty]

/-- C6, at a provider whose search finds nothing. -/
theorem SearchComments_empty_result_panics_witness :
    (constDb []).SearchComments "nothing" "asc" 1 10 = .ok [] ∧
    (CommentService.SearchComments parseCanonical asciiLower (constDb []) 3 "nothing" ""
        "asc" 1 10).2 = Outcome.panic :=
  ⟨rfl, SearchComments_empty_result_panics parseCanonical asciiLower (constDb []) 3
    "nothing" "asc" 1 10 rfl⟩

/-! ### `NewComment` and identifier validation -/

/-- C7: `NewComment` returns an error (and no comment) if and only if the text is empty, or
the parent string is non-empty and `uuid.Parse` rejects it. -/
theorem NewComment_error_iff (parse : String → Except Error UUID) (newID : UUID) (now : Int)
    (parentid text : String) :
    (∃ e, NewComment parse newID now parentid text = .error e) ↔
      (text = "" ∨ (parentid ≠ "" ∧ ∃ e, parse parentid = .error e)) := by
  unfold NewComment
  by_cases hp : parentid = ""
  · subst hp
    by_cases ht : text = "" <;> simp [ht]
  · cases hparse : parse parentid with
    | error e => simp [hp]
    | ok u => by_cases ht : text = "" <;> simp [hp, ht]

/-- C8: a string that `uuid.Parse` rejects makes `CommentService.DeleteComments` return an
error, and, when non-empty, makes `CommentService.GetComments` return an error, in both
cases with no call of the provider; for a string that parses, `DeleteComments` calls the
provider's `DeleteComments` once, with that same string, and returns its result. -/
theorem validation_before_store (parse : String → Except Error UUID) (db : DbProvider) :
    (∀ s, (∃ e, parse s = .error e) →
      (CommentService.DeleteComments parse db s).1 = [] ∧
      ∃ e, (CommentService.DeleteComments parse db s).2 = some e) ∧
    (∀ s fuel sortAsc page pageSize, s ≠ "" → (∃ e, parse s = .error e) →
      (CommentService.GetComments parse db fuel s sortAsc page pageSize).1 = [] ∧
      ∃ e, (CommentService.GetComments parse db fuel s sortAsc page pageSize).2 = .error e) ∧
    (∀ s u, parse s = .ok u →
      CommentService.DeleteComments parse db s =
        ([DbCall.DeleteComments s], db.DeleteComments s)) := by
  refine ⟨?_, ?_, ?_⟩
  · rintro s ⟨e, he⟩
    simp [CommentService.DeleteComments, he]
  · rintro s fuel sortAsc page pageSize hs ⟨e, he⟩
    simp [CommentService.GetComments, hs, he]
  · intro s u hu
    simp [CommentService.DeleteComments, hu]

/-- C8, at the string of `TestCommentService_DeleteComments_InvalidUUID` and at a canonical
identifier. -/
theorem validation_before_store_witness :
    (CommentService.DeleteComments parseCanonical (constDb []) "invalid-uuid").1 = [] ∧
    (CommentService.GetComments parseCanonical (constDb []) 1 "invalid-uuid" "asc" 1 10).1 =
      [] ∧
    CommentService.DeleteComments parseCanonical (constDb [])
        "550e8400-e29b-41d4-a716-446655440000" =
      ([DbCall.DeleteComments "550e8400-e29b-41d4-a716-446655440000"], none) :=
  have h := validation_before_store parseCanonical (constDb [])
  ⟨(h.1 "invalid-uuid" ⟨_, rfl⟩).1,
    (h.2.1 "invalid-uuid" 1 "asc" 1 10 (by decide) ⟨_, rfl⟩).1,
    h.2.2 "550e8400-e29b-41d4-a716-446655440000" sampleID rfl⟩

/-! ### `CommentHandler` -/

/-- C9 fails on the code: when `uuid.Parse` rejects a non-empty path id, the DELETE
handler answers 503, and when it rejects a non-empty `parent` parameter, the GET handler
answers 503, with or without a search text; the status 400 is not produced for a
validation error of the service. -/
theorem handler_validation_error_is_503 (parse : String → Except Error UUID)
    (lower : String → String) (atoi : String → Int) (db : DbProvider) (fuel : Nat)
    (s search page pageSize sort : String)
    (hne : s ≠ "") (hbad : ∃ e, parse s = .error e) :
    CommentHandler.DeleteComments (CommentService.asWeb parse lower db fuel) s = 503 ∧
    CommentHandler.GetComments atoi (CommentService.asWeb parse lower db fuel)
      s search page pageSize sort = some 503 := by
  obtain ⟨e, he⟩ := hbad
  constructor
  · simp [CommentHandler.DeleteComments, CommentService.asWeb, CommentService.DeleteComments,
      hne, he]
  · by_cases hs : search = ""
    · simp [CommentHandler.GetComments, CommentService.asWeb, CommentService.GetComments,
        hne, he, hs]
    · simp [CommentHandler.GetComments, CommentService.asWeb, CommentService.SearchComments,
        CommentService.GetComments, hne, he, hs]

/-- C9, at `DELETE /api/comments/not-a-uuid` and `GET /api/comments?parent=not-a-uuid`. -/
theorem handler_validation_error_is_503_witness :
    "not-a-uuid" ≠ "" ∧ (∃ e, parseCanonical "not-a-uuid" = .error e) ∧
    CommentHandler.DeleteComments
      (CommentService.asWeb parseCanonical asciiLower (constDb []) 1) "not-a-uuid" = 503 ∧
    CommentHandler.GetComments (fun _ => 0)
      (CommentService.asWeb parseCanonical asciiLower (constDb []) 1)
      "not-a-uuid" "" "1" "10" "asc" = some 503 :=
  ⟨by decide, ⟨_, rfl⟩,
    handler_validation_error_is_503 parseCanonical asciiLower (fun _ => 0) (constDb []) 1
      "not-a-uuid" "" "1" "10" "asc" (by decide) ⟨_, rfl⟩⟩

/-! ### `Postgres` -/

theorem mem_cteStep_false (table work : List Row) (c : Row) :
    c ∈ cteStep false table work ↔ c ∈ table ∧ ∃ t ∈ work, c.parentId = some t.id := by
  simp only [cteStep, List.mem_flatMap, List.mem_filter]
  constructor
  · rintro ⟨t, ht, hc, hp⟩
    exact ⟨hc, t, ht, by simpa using hp⟩
  · rintro ⟨hc, t, ht, hp⟩
    exact ⟨t, ht, hc, by simpa using hp⟩

/-- The rows collected by the recursive query of `DeleteComments` contain the working
table and are closed under taking children. -/
theorem cteRun_closed (table : List Row) :
    ∀ (fuel : Nat) (work tree : List Row), cteRun false table fuel work = some tree →
      (∀ t ∈ work, t ∈ tree) ∧
      (∀ t ∈ tree, ∀ c ∈ table, c.parentId = some t.id → c ∈ tree) := by
  intro fuel
  induction fuel with
  | zero => intro work tree h; simp [cteRun] at h
  | succ n ih =>
    intro work tree h
    rw [cteRun] at h
    by_cases he : work.isEmpty = true
    · simp only [he, if_true, Option.some.injEq] at h
      subst h
      have : work = [] := List.isEmpty_iff.mp he
      subst this
      simp
    · simp only [he] at h
      cases hr : cteRun false table n (cteStep false table work) with
      | none => simp [hr] at h
      | some more =>
        rw [hr] at h
        simp only [Option.some.injEq, Bool.false_eq_true, if_false] at h
        subst h
        obtain ⟨h1, h2⟩ := ih _ _ hr
        refine ⟨fun t ht => List.mem_append_left _ ht, ?_⟩
        intro t ht c hc hp
        apply List.mem_append_right
        rcases List.mem_append.mp ht with hw | hm
        · exact h1 c ((mem_cteStep_false table work c).mpr ⟨hc, t, hw, hp⟩)
        · exact h2 t hm c hc hp

theorem descendant_mem_tree {table : List Row} {root : UUID} {fuel : Nat} {tree : List Row}
    (hroot : ∀ r ∈ table, r.parentId = some root → ∃ q ∈ table, q.id = root)
    (hrun : cteRun false table fuel (table.filter (fun r => decide (r.id = root))) = some tree)
    {r : Row} (h : r ∈ table ∧ r.id = root ∨ IsDescendant table root r) : r ∈ tree := by
  obtain ⟨h1, h2⟩ := cteRun_closed table fuel _ tree hrun
  have hstart : ∀ q ∈ table, q.id = root → q ∈ tree := fun q hq hid =>
    h1 q (List.mem_filter.mpr ⟨hq, by simpa using hid⟩)
  rcases h with ⟨hr, hid⟩ | hd
  · exact hstart r hr hid
  · induction hd with
    | child hm hp =>
      obtain ⟨q, hq, hqid⟩ := hroot _ hm hp
      exact h2 q (hstart q hq hqid) _ hm (by rw [hp, hqid])
    | step hm _ hp ih => exact h2 _ ih _ hm hp

theorem cteRun_terminates (table : List Row) (rank : UUID → Nat)
    (hacyc : ∀ r ∈ table, ∀ p, r.parentId = some p → rank p < rank r.id) :
    ∀ (n : Nat) (work : List Row) (fuel : Nat),
      (∀ t ∈ work, t ∈ table) → (∀ t ∈ work, rowRankBound rank table ≤ rank t.id + n) →
      n < fuel → ∃ tree, cteRun false table fuel work = some tree := by
  have hbound : ∀ (T : List Row) (t : Row), t ∈ T → rank t.id + 1 ≤ rowRankBound rank T := by
    intro T
    induction T with
    | nil => intro t ht; simp at ht
    | cons a rest ih =>
      intro t ht
      simp only [rowRankBound, List.map_cons, List.sum_cons]
      rcases List.mem_cons.mp ht with h | h
      · subst h; omega
      · have := ih t h
        simp only [rowRankBound] at this
        omega
  intro n
  induction n with
  | zero =>
    intro work fuel hsub hrk hlt
    have hw : work = [] := by
      cases work with
      | nil => rfl
      | cons t ts =>
        have h1 := hrk t (List.mem_cons_self _ _)
        have h2 := hbound table t (hsub t (List.mem_cons_self _ _))
        omega
    subst hw
    obtain ⟨f, rfl⟩ : ∃ f, fuel = f + 1 := ⟨fuel - 1, by omega⟩
    exact ⟨[], by simp [cteRun]⟩
  | succ n ih =>
    intro work fuel hsub hrk hlt
    obtain ⟨f, rfl⟩ : ∃ f, fuel = f + 1 := ⟨fuel - 1, by omega⟩
    rw [cteRun]
    by_cases he : work.isEmpty = true
    · exact ⟨[], by simp [he]⟩
    · have hstep := ih (cteStep false table work) f
        (fun c hc => ((mem_cteStep_false table work c).mp hc).1)
        (fun c hc => by
          obtain ⟨hct, t, ht, hp⟩ := (mem_cteStep_false table work c).mp hc
          have h1 := hacyc c hct _ hp
          have h2 := hrk t ht
          omega)
        (by omega)
      obtain ⟨more, hmore⟩ := hstep
      exact ⟨work ++ more, by simp [he, hmore]⟩

theorem mem_limitOffset {rows out : List Row} {limit offset : Int}
    (h : limitOffset rows limit offset = .ok out) : ∀ r ∈ out, r ∈ rows := by
  unfold limitOffset at h
  split_ifs at h
  simp only [Except.ok.injEq] at h
  subst h
  intro r hr
  exact List.mem_of_mem_drop (List.mem_of_mem_take hr)

theorem mem_orderByCreatedAt (d : Direction) (rows : List Row) (r : Row) :
    r ∈ orderByCreatedAt d rows ↔ r ∈ rows := by
  cases d <;> simp only [orderByCreatedAt] <;> exact (List.perm_insertionSort _ _).mem_iff

/-- What a root-less fetch can return: comments scanned from rows that are active. -/
theorem fetch_all_mem {cast : String → Except Error UUID} {upper : String → String}
    {fuel : Nat} {table : List Row} {sortAsc : String} {page pageSize : Int}
    {comments : List Comment}
    (h : Postgres.GetComments cast upper fuel table "" sortAsc page pageSize =
      some (.ok comments)) :
    ∀ c ∈ comments, ∃ r ∈ table, r.status = "active" ∧ r.toComment = c := by
  simp only [Postgres.GetComments, if_true] at h
  split at h
  · simp at h
  · rename_i rows hlim
    simp only [Option.some.injEq, Except.ok.injEq] at h
    subst h
    intro c hc
    obtain ⟨r, hr, hrc⟩ := List.mem_map.mp hc
    have h1 := mem_limitOffset hlim r hr
    rw [mem_orderByCreatedAt] at h1
    obtain ⟨h2, h3⟩ := List.mem_filter.mp h1
    exact ⟨r, h2, by simpa using h3, hrc⟩

/-- C10: let `id` be read by the store as the identifier `root`, in a table where a row
naming `root` as its parent implies a row with id `root` (referential integrity of
`parent_id` at `root`). When `DeleteComments(id)` has completed, no root-less fetch
(any order, any page) returns a comment whose id is that of a row with id `root` or of a
transitive descendant of `root`, whatever the status of the rows in between. The delete
completes for every table whose parent links are acyclic, and the root-less fetch always
answers. -/
theorem delete_then_fetch (cast : String → Except Error UUID) (upper : String → String)
    (table : List Row) (id : String) (root : UUID) (hcast : cast id = .ok root)
    (hroot : ∀ r ∈ table, r.parentId = some root → ∃ q ∈ table, q.id = root) :
    (∀ fuel table', Postgres.DeleteComments cast fuel table id = some (table', none) →
      ∀ fuel2 sortAsc page pageSize comments,
        Postgres.GetComments cast upper fuel2 table' "" sortAsc page pageSize =
          some (.ok comments) →
        ∀ r ∈ table, (r.id = root ∨ IsDescendant table root r) →
          ∀ c ∈ comments, c.ID ≠ r.id) ∧
    (∀ rank : UUID → Nat, (∀ r ∈ table, ∀ p, r.parentId = some p → rank p < rank r.id) →
      ∀ fuel, rowRankBound rank table < fuel →
        ∃ table', Postgres.DeleteComments cast fuel table id = some (table', none)) ∧
    (∀ table' fuel2 sortAsc page pageSize,
      ∃ res, Postgres.GetComments cast upper fuel2 table' "" sortAsc page pageSize =
        some res) := by
  refine ⟨?_, ?_, ?_⟩
  · intro fuel table' hdel fuel2 sortAsc page pageSize comments hget r hr hdesc c hc hcid
    simp only [Postgres.DeleteComments, hcast] at hdel
    cases hrun : cteRun false table fuel (table.filter (fun r => decide (r.id = root))) with
    | none => simp [hrun] at hdel
    | some tree =>
      rw [hrun] at hdel
      simp only [Option.some.injEq, Prod.mk.injEq, and_true] at hdel
      have hrt : r ∈ tree := by
        apply descendant_mem_tree hroot hrun
        rcases hdesc with h | h
        · exact Or.inl ⟨hr, h⟩
        · exact Or.inr h
      obtain ⟨r1, hr1, hact, hr1c⟩ := fetch_all_mem hget c hc
      rw [← hdel] at hr1
      obtain ⟨r0, hr0, hmap⟩ := List.mem_map.mp hr1
      have hany : tree.any (fun t => decide (t.id = r0.id)) = true := by
        rw [List.any_eq_true]
        refine ⟨r, hrt, ?_⟩
        have hid1 : r1.id = c.ID := by rw [← hr1c]; rfl
        have hid0 : r1.id = r0.id := by
          rw [← hmap]
          split_ifs <;> rfl
        simp only [decide_eq_true_eq]
        rw [← hid0, hid1, hcid]
      rw [hany] at hmap
      simp only [if_true] at hmap
      rw [← hmap] at hact
      simp at hact
  · intro rank hacyc fuel hfuel
    obtain ⟨tree, htree⟩ := cteRun_terminates table rank hacyc (rowRankBound rank table)
      (table.filter (fun r => decide (r.id = root))) fuel
      (fun t ht => (List.mem_filter.mp ht).1) (fun t _ => Nat.le_add_left _ _) hfuel
    simp only [Postgres.DeleteComments, hcast, htree]
    exact ⟨_, rfl⟩
  · intro table' fuel2 sortAsc page pageSize
    simp only [Postgres.GetComments, if_true]
    split <;> exact ⟨_, rfl⟩

/-- C10, at a table in which the reply between the root and its grandchild was deleted
earlier: deleting the root completes, and the fetch of the first page returns the
unrelated root alone. -/
theorem delete_then_fetch_witness :
    parseCanonical "550e8400-e29b-41d4-a716-446655440000" = .ok sampleID ∧
    (∀ r ∈ sampleTable, r.parentId = some sampleID → ∃ q ∈ sampleTable, q.id = sampleID) ∧
    (∃ table', Postgres.DeleteComments parseCanonical 5 sampleTable
        "550e8400-e29b-41d4-a716-446655440000" = some (table', none) ∧
      Postgres.GetComments parseCanonical asciiUpper 0 table' "" "asc" 1 10 =
        some (.ok [⟨⟨5⟩, "other", 3, none⟩])) ∧
    (∀ comments, Postgres.GetComments parseCanonical asciiUpper 0
        [⟨sampleID, "root", 0, none, "deleted"⟩,
         ⟨⟨sampleID.val + 1⟩, "reply", 1, some sampleID, "deleted"⟩,
         ⟨⟨sampleID.val + 2⟩, "nested", 2, some ⟨sampleID.val + 1⟩, "deleted"⟩,
         ⟨⟨5⟩, "other", 3, none, "active"⟩] "" "desc" 2 1 = some (.ok comments) →
      ∀ r ∈ sampleTable, (r.id = sampleID ∨ IsDescendant sampleTable sampleID r) →
        ∀ c ∈ comments, c.ID ≠ r.id) :=
  ⟨rfl, by decide, ⟨_, rfl, rfl⟩,
    (delete_then_fetch parseCanonical asciiUpper sampleTable
      "550e8400-e29b-41d4-a716-446655440000" sampleID rfl (by decide)).1 5 _ rfl 0 "desc" 2 1⟩

/-! ### Shape of `BuildTree` and `FilterTreeByText` -/

theorem buildLoop_shape (r : Option UUID → Option (List CommentNode)) (P : Option UUID) :
    ∀ (cs : List Comment) (T : List CommentNode), buildLoop r P cs = some T →
      T.map CommentNode.comment = cs.filter (fun c => decide (c.ParentID = P)) ∧
      ∀ n ∈ T, r (some n.comment.ID) = some n.Children := by
  intro cs
  induction cs with
  | nil =>
    intro T h
    simp only [buildLoop, Option.some.injEq] at h
    subst h
    simp
  | cons c rest ih =>
    intro T h
    simp only [buildLoop] at h
    by_cases hc : c.ParentID = P
    · simp only [hc, if_true] at h
      cases hr : r (some c.ID) with
      | none => simp [hr] at h
      | some ch =>
        rw [hr] at h
        cases hl : buildLoop r P rest with
        | none => simp [hl] at h
        | some res =>
          rw [hl] at h
          simp only [Option.some.injEq] at h
          subst h
          obtain ⟨h1, h2⟩ := ih res hl
          refine ⟨by simp [hc, h1, CommentNode.comment], ?_⟩
          intro n hn
          rcases List.mem_cons.mp hn with e | e
          · subst e
            simpa [CommentNode.comment, CommentNode.Children] using hr
          · exact h2 n e
    · simp only [hc, if_false] at h
      obtain ⟨h1, h2⟩ := ih T h
      exact ⟨by simp [hc, h1], h2⟩

/-- With acyclic parent links `BuildTree` returns once the stack bound exceeds the
rank bound of the sequence. -/
theorem BuildTree_returns {F : List Comment} {rank : UUID → Nat}
    (hacyc : ∀ c ∈ F, ∀ p, c.ParentID = some p → rank p < rank c.ID) :
    ∀ (k : Nat) (P : Option UUID), rankBound rank F ≤ rankOpt rank P + k →
      ∃ T, BuildTree (k + 1) F P = some T := by
  intro k
  induction k with
  | zero =>
    intro P hP
    rw [BuildTree]
    refine ⟨_, buildLoop_eq_of_isSome _ P F ?_⟩
    intro c hc hp
    have h1 := rankOpt_lt_child hacyc hc hp
    have h2 := le_rankBound rank F c hc
    omega
  | succ k ih =>
    intro P hP
    rw [BuildTree]
    refine ⟨_, buildLoop_eq_of_isSome _ P F ?_⟩
    intro c hc hp
    have h1 := rankOpt_lt_child hacyc hc hp
    obtain ⟨T, hT⟩ := ih (some c.ID) (by simp only [rankOpt]; omega)
    simp [hT]

theorem mem_forestSubnodes_iff (m : CommentNode) :
    ∀ T : List CommentNode,
      m ∈ forestSubnodes T ↔ ∃ n ∈ T, m = n ∨ m ∈ forestSubnodes n.Children := by
  intro T
  induction T with
  | nil => simp [forestSubnodes]
  | cons n ns ih =>
    cases n with
    | mk c ch =>
      simp only [forestSubnodes, nodeSubnodes, List.mem_append, List.mem_cons, ih,
        CommentNode.Children]
      constructor
      · rintro ((h | h) | ⟨n, hn, h⟩)
        · exact ⟨_, Or.inl rfl, Or.inl h⟩
        · exact ⟨_, Or.inl rfl, Or.inr h⟩
        · exact ⟨n, Or.inr hn, h⟩
      · rintro ⟨n, hn | hn, h⟩
        · subst hn
          exact Or.inl h
        · exact Or.inr ⟨n, hn, h⟩

/-- Every node of a forest returned by `BuildTree`, at any depth, carries as children
what `BuildTree` returns for the node's own id at a smaller stack bound. -/
theorem BuildTree_every_node (F : List Comment) :
    ∀ (fuel : Nat) (P : Option UUID) (T : List CommentNode), BuildTree fuel F P = some T →
      ∀ m ∈ forestSubnodes T, ∃ k, k < fuel ∧
        BuildTree k F (some m.comment.ID) = some m.Children := by
  intro fuel
  induction fuel with
  | zero => intro P T h; simp [BuildTree] at h
  | succ k ih =>
    intro P T h m hm
    rw [BuildTree] at h
    obtain ⟨_, hch⟩ := buildLoop_shape _ P F T h
    obtain ⟨n, hn, hor⟩ := (mem_forestSubnodes_iff m T).mp hm
    rcases hor with e | e
    · subst e
      exact ⟨k, Nat.lt_succ_self k, hch m hn⟩
    · obtain ⟨j, hj, hres⟩ := ih _ _ (hch n hn) m e
      exact ⟨j, Nat.lt_succ_of_lt hj, hres⟩

/-- C13: `FilterTreeByText(T, q)` keeps a node `n` of `T` if and only if the lowered text
of `n` contains the lowered `q` or `FilterTreeByText(n.children, q)` is non-empty; every
kept node carries the comment of `n` with children `FilterTreeByText(n.children, q)`, and
the kept nodes stand in their original order. -/
theorem FilterTreeByText_shape (lower : String → String) (T : List CommentNode) (q : String) :
    FilterTreeByText lower T q =
      (T.filter (fun n => strContains (lower n.comment.Text) (lower q) ||
          !(FilterTreeByText lower n.Children q).isEmpty)).map
        (fun n => CommentNode.mk n.comment (FilterTreeByText lower n.Children q)) := by
  induction T with
  | nil => simp [FilterTreeByText]
  | cons n ns ih =>
    rw [FilterTreeByText_cons, ih]
    cases n with
    | mk c ch =>
      simp only [filterNode, CommentNode.comment, CommentNode.Children, List.filter_cons]
      by_cases h1 : strContains (lower c.Text) (lower q) = true
      · simp [h1]
      · cases hF : FilterTreeByText lower ch q with
        | nil => simp [h1]
        | cons a b => simp [h1, hF]

theorem strContains_empty (s : String) : strContains s "" = true := by
  unfold strContains
  cases h : s.data with
  | nil => simp [List.tails]
  | cons a b => simp [List.tails]

mutual
theorem filterNode_empty_query (lower : String → String) (hlower : lower "" = "") :
    ∀ n : CommentNode, filterNode lower "" n = some n
  | .mk c ch => by
    have ih := FilterTreeByText_empty_query lower hlower ch
    simp [filterNode, ih, hlower, strContains_empty]
theorem FilterTreeByText_empty_query (lower : String → String) (hlower : lower "" = "") :
    ∀ T : List CommentNode, FilterTreeByText lower T "" = T
  | [] => by simp [FilterTreeByText]
  | n :: ns => by
    rw [FilterTreeByText_cons, filterNode_empty_query lower hlower n,
      FilterTreeByText_empty_query lower hlower ns]
    rfl
end

/-- C14: for every forest `T`, `FilterTreeByText(T, "")` is `T` itself, given that
`strings.ToLower` maps the empty string to the empty string. -/
theorem FilterTreeByText_empty_string (lower : String → String) (hlower : lower "" = "")
    (T : List CommentNode) : FilterTreeByText lower T "" = T :=
  FilterTreeByText_empty_query lower hlower T

/-- C14, at the forest built from the sequence of `TestBuildTree`. -/
theorem FilterTreeByText_empty_string_witness :
    asciiLower "" = "" ∧
    FilterTreeByText asciiLower
      [CommentNode.mk ⟨⟨1⟩, "Root comment", 0, none⟩
          [CommentNode.mk ⟨⟨2⟩, "Child comment", 1, some ⟨1⟩⟩ []],
        CommentNode.mk ⟨⟨3⟩, "Another root comment", 2, none⟩ []] "" =
      [CommentNode.mk ⟨⟨1⟩, "Root comment", 0, none⟩
          [CommentNode.mk ⟨⟨2⟩, "Child comment", 1, some ⟨1⟩⟩ []],
        CommentNode.mk ⟨⟨3⟩, "Another root comment", 2, none⟩ []] :=
  ⟨rfl, FilterTreeByText_empty_string asciiLower rfl _⟩

/-! ### Totality -/

mutual
theorem filterNode_size_le (lower : String → String) (q : String) :
    ∀ n : CommentNode,
      (forestComments (filterNode lower q n).toList).length ≤ (nodeComments n).length
  | .mk c ch => by
    have ih := FilterTreeByText_size_le lower q ch
    simp only [filterNode, nodeComments]
    split_ifs
    · simp only [Option.toList_some, forestComments, nodeComments, List.append_nil,
        List.length_cons]
      omega
    · simp [forestComments]
theorem FilterTreeByText_size_le (lower : String → String) (q : String) :
    ∀ T : List CommentNode,
      (forestComments (FilterTreeByText lower T q)).length ≤ (forestComments T).length
  | [] => by simp [FilterTreeByText]
  | n :: ns => by
    have ih1 := filterNode_size_le lower q n
    have ih2 := FilterTreeByText_size_le lower q ns
    rw [FilterTreeByText_cons, forestComments_append]
    simp only [forestComments, List.length_append]
    omega
end

/-- C16, as stated, fails for `BuildTree`: on the sequence whose only element names
itself as its parent, `BuildTree(F, P)` with `P` that identifier returns no forest at any
stack bound. -/
theorem BuildTree_total_counterexample :
    ¬ ∃ (fuel : Nat) (T : List CommentNode),
      BuildTree fuel selfParentFlat (some ⟨1⟩) = some T := by
  rintro ⟨fuel, T, h⟩
  rw [BuildTree_selfParent_none fuel] at h
  exact Option.noConfusion h

/-- C16 (amended): `BuildTree` terminates and returns a forest for every flat sequence
whose parent links are acyclic (some rank strictly increases from every parent to its
child) and every parent, the same forest at every sufficiently large stack bound, and it
returns the empty forest on the empty sequence; `FilterTreeByText` returns a forest for
every forest and query, no larger than its input, and the empty forest on the empty
forest. -/
theorem tree_algebra_total (lower : String → String) (F : List Comment) (P : Option UUID)
    (rank : UUID → Nat)
    (hacyc : ∀ c ∈ F, ∀ p, c.ParentID = some p → rank p < rank c.ID)
    (T : List CommentNode) (q : String) :
    (∃ R, ∀ fuel, rankBound rank F + 1 ≤ fuel → BuildTree fuel F P = some R) ∧
    (∀ fuel, BuildTree (fuel + 1) [] P = some []) ∧
    (∃ R, FilterTreeByText lower T q = R ∧
      (forestComments R).length ≤ (forestComments T).length) ∧
    FilterTreeByText lower [] q = [] := by
  refine ⟨?_, ?_, ⟨_, rfl, FilterTreeByText_size_le lower q T⟩, ?_⟩
  · obtain ⟨R, hR⟩ := BuildTree_returns hacyc (rankBound rank F) P (Nat.le_add_left _ _)
    exact ⟨R, BuildTree_fuel_mono F P R _ hR⟩
  · intro fuel
    simp [BuildTree, buildLoop]
  · simp [FilterTreeByText]

/-- C16 (amended), at the flat sequence of `TestBuildTree`. -/
theorem tree_algebra_total_witness :
    (∀ c ∈ testFlat, ∀ p, c.ParentID = some p → UUID.val p < UUID.val c.ID) ∧
    (∃ R, ∀ fuel, rankBound UUID.val testFlat + 1 ≤ fuel →
      BuildTree fuel testFlat none = some R) :=
  have hacyc : ∀ c ∈ testFlat, ∀ p, c.ParentID = some p → UUID.val p < UUID.val c.ID := by
    intro c hc p hp
    simp only [testFlat, List.mem_cons, List.mem_singleton, List.not_mem_nil, or_false] at hc
    rcases hc with h | h | h <;> subst h <;> simp at hp
    subst hp
    decide
  ⟨hacyc, (tree_algebra_total asciiLower testFlat none UUID.val hacyc [] "").1⟩

/-! ### `Postgres.DeleteComments`, repeated -/

theorem markDeleted_id (tree : List Row) (r : Row) : (markDeleted tree r).id = r.id := by
  unfold markDeleted
  split_ifs <;> rfl

theorem markDeleted_parentId (tree : List Row) (r : Row) :
    (markDeleted tree r).parentId = r.parentId := by
  unfold markDeleted
  split_ifs <;> rfl

theorem markDeleted_map_tree (tree : List Row) (r : Row) :
    markDeleted (tree.map (markDeleted tree)) (markDeleted tree r) = markDeleted tree r := by
  have hany : (tree.map (markDeleted tree)).any
      (fun t => decide (t.id = (markDeleted tree r).id)) =
      tree.any (fun t => decide (t.id = r.id)) := by
    rw [List.any_map]
    congr 1
    funext t
    simp [markDeleted_id]
  unfold markDeleted at hany ⊢
  by_cases h : tree.any (fun t => decide (t.id = r.id)) = true
  · simp only [h, if_true] at hany ⊢
    simp only [hany, if_true]
  · simp only [h] at hany ⊢
    simp only [Bool.false_eq_true, if_false] at hany ⊢
    simp only [hany, Bool.false_eq_true, if_false]

theorem cteStep_map (f : Row → Row) (hid : ∀ r, (f r).id = r.id)
    (hpar : ∀ r, (f r).parentId = r.parentId) (table work : List Row) :
    cteStep false (table.map f) (work.map f) = (cteStep false table work).map f := by
  simp only [cteStep, List.flatMap_map, List.map_flatMap, List.filter_map]
  congr 1
  funext t
  congr 1
  apply List.filter_congr
  intro c _
  simp [hid, hpar]

theorem cteRun_map (f : Row → Row) (hid : ∀ r, (f r).id = r.id)
    (hpar : ∀ r, (f r).parentId = r.parentId) (table : List Row) :
    ∀ (fuel : Nat) (work : List Row),
      cteRun false (table.map f) fuel (work.map f) =
        (cteRun false table fuel work).map (List.map f) := by
  intro fuel
  induction fuel with
  | zero => intro work; simp [cteRun]
  | succ n ih =>
    intro work
    rw [cteRun, cteRun, cteStep_map f hid hpar, ih]
    cases work with
    | nil => simp
    | cons a b =>
      simp only [List.map_cons, List.isEmpty_cons, Bool.false_eq_true, if_false]
      cases cteRun false table n (cteStep false table (a :: b)) <;> simp

theorem cteRun_det (ao : Bool) (table : List Row) :
    ∀ (f1 f2 : Nat) (work a b : List Row),
      cteRun ao table f1 work = some a → cteRun ao table f2 work = some b → a = b := by
  intro f1
  induction f1 with
  | zero => intro f2 work a b h; simp [cteRun] at h
  | succ n ih =>
    intro f2 work a b h1 h2
    cases f2 with
    | zero => simp [cteRun] at h2
    | succ m =>
      rw [cteRun] at h1 h2
      by_cases he : work.isEmpty = true
      · simp only [he, if_true, Option.some.injEq] at h1 h2
        rw [← h1, ← h2]
      · simp only [he, Bool.false_eq_true, if_false] at h1 h2
        cases hr1 : cteRun ao table n (cteStep ao table work) with
        | none => simp [hr1] at h1
        | some x =>
          cases hr2 : cteRun ao table m (cteStep ao table work) with
          | none => simp [hr2] at h2
          | some y =>
            rw [hr1] at h1
            rw [hr2] at h2
            simp only [Option.some.injEq] at h1 h2
            rw [← h1, ← h2, ih m _ x y hr1 hr2]

/-- Every row collected by the recursive query of `DeleteComments` has the id `root` or is
a transitive descendant of `root`. -/
theorem cteRun_sound (table : List Row) (root : UUID) :
    ∀ (fuel : Nat) (work tree : List Row), cteRun false table fuel work = some tree →
      (∀ t ∈ work, (t ∈ table ∧ t.id = root) ∨ IsDescendant table root t) →
      ∀ t ∈ tree, (t ∈ table ∧ t.id = root) ∨ IsDescendant table root t := by
  intro fuel
  induction fuel with
  | zero => intro work tree h; simp [cteRun] at h
  | succ n ih =>
    intro work tree h hw
    rw [cteRun] at h
    by_cases he : work.isEmpty = true
    · simp only [he, if_true, Option.some.injEq] at h
      subst h
      intro t ht
      simp at ht
    · simp only [he, Bool.false_eq_true, if_false] at h
      cases hr : cteRun false table n (cteStep false table work) with
      | none => simp [hr] at h
      | some more =>
        rw [hr] at h
        simp only [Option.some.injEq] at h
        subst h
        have hmore := ih _ _ hr (by
          intro c hc
          obtain ⟨hct, t, ht, hp⟩ := (mem_cteStep_false table work c).mp hc
          right
          rcases hw t ht with ⟨_, hid⟩ | hd
          · exact IsDescendant.child hct (by rw [hp, hid])
          · exact IsDescendant.step hct hd hp)
        intro t ht
        rcases List.mem_append.mp ht with h1 | h1
        · exact hw t h1
        · exact hmore t h1

theorem DeleteComments_ok {cast : String → Except Error UUID} {fuel : Nat}
    {table : List Row} {id : String} {root : UUID} (hcast : cast id = .ok root)
    {out : List Row × Option Error}
    (h : Postgres.DeleteComments cast fuel table id = some out) :
    ∃ tree, cteRun false table fuel (table.filter (fun r => decide (r.id = root))) =
        some tree ∧ out = (table.map (markDeleted tree), none) := by
  simp only [Postgres.DeleteComments, hcast] at h
  cases hrun : cteRun false table fuel (table.filter (fun r => decide (r.id = root))) with
  | none => simp [hrun] at h
  | some tree =>
    rw [hrun] at h
    simp only [Option.some.injEq] at h
    exact ⟨tree, rfl, h.symm⟩

theorem DeleteComments_of_run {cast : String → Except Error UUID} {fuel : Nat}
    {table : List Row} {id : String} {root : UUID} (hcast : cast id = .ok root)
    {tree : List Row}
    (hrun : cteRun false table fuel (table.filter (fun r => decide (r.id = root))) =
      some tree) :
    Postgres.DeleteComments cast fuel table id = some (table.map (markDeleted tree), none) := by
  simp only [Postgres.DeleteComments, hcast, hrun]
  rfl

/-- C11: when `DeleteComments(id)` has turned the table into `table'`, executing it again
on `table'` completes, at the same bound, and leaves `table'` as it is (and no other
bound gives another result). Every row of `table'` is the row of `table` at the same
place, either unchanged or with its status set to `deleted`; a row whose id is neither
`id` nor the id of a transitive descendant of `id` is unchanged, and with unique ids
these are exactly the rows outside the transitive closure of `id`. -/
theorem delete_idempotent (cast : String → Except Error UUID) (fuel : Nat)
    (table : List Row) (id : String) (table' : List Row) (e : Option Error)
    (hdel : Postgres.DeleteComments cast fuel table id = some (table', e)) :
    Postgres.DeleteComments cast fuel table' id = some (table', e) ∧
    (∀ fuel2 out, Postgres.DeleteComments cast fuel2 table' id = some out →
      out = (table', e)) ∧
    (∀ err, cast id = .error err → table' = table) ∧
    (∀ root, cast id = .ok root →
      ∃ f : Row → Row, table' = table.map f ∧ ∀ r ∈ table,
        (f r = r ∨ f r = { r with status := "deleted" }) ∧
        ((∀ t ∈ table, (t.id = root ∨ IsDescendant table root t) → t.id ≠ r.id) →
          f r = r) ∧
        ((table.map Row.id).Nodup → r.id ≠ root → ¬ IsDescendant table root r →
          f r = r)) := by
  cases hcast : cast id with
  | error err =>
    have h0 : Postgres.DeleteComments cast fuel table id = some (table, some err) := by
      simp [Postgres.DeleteComments, hcast]
    rw [h0] at hdel
    simp only [Option.some.injEq, Prod.mk.injEq] at hdel
    obtain ⟨ht, he⟩ := hdel
    subst ht
    subst he
    refine ⟨by simp [Postgres.DeleteComments, hcast], ?_, fun _ _ => rfl, ?_⟩
    · intro fuel2 out hout
      simp only [Postgres.DeleteComments, hcast, Option.some.injEq] at hout
      exact hout.symm
    · intro root hroot
      simp at hroot
  | ok root =>
    obtain ⟨tree, hrun, hout⟩ := DeleteComments_ok hcast hdel
    simp only [Prod.mk.injEq] at hout
    obtain ⟨ht, he⟩ := hout
    subst ht
    subst he
    have hrun2 : cteRun false (table.map (markDeleted tree)) fuel
        ((table.map (markDeleted tree)).filter (fun r => decide (r.id = root))) =
        some (tree.map (markDeleted tree)) := by
      have hfil : (table.map (markDeleted tree)).filter (fun r => decide (r.id = root)) =
          (table.filter (fun r => decide (r.id = root))).map (markDeleted tree) := by
        rw [List.filter_map]
        congr 1
        apply List.filter_congr
        intro r _
        simp [markDeleted_id]
      rw [hfil, cteRun_map _ (markDeleted_id tree) (markDeleted_parentId tree), hrun]
      rfl
    have hsame : (table.map (markDeleted tree)).map
        (markDeleted (tree.map (markDeleted tree))) = table.map (markDeleted tree) := by
      rw [List.map_map]
      apply List.map_congr_left
      intro r _
      exact markDeleted_map_tree tree r
    have hsecond := DeleteComments_of_run hcast hrun2
    rw [hsame] at hsecond
    refine ⟨hsecond, ?_, ?_, ?_⟩
    · intro fuel2 out hout
      obtain ⟨tree2, hrun3, hout2⟩ := DeleteComments_ok hcast hout
      have := cteRun_det false _ _ _ _ _ _ hrun3 hrun2
      subst this
      rw [hout2, hsame]
    · intro err herr
      simp at herr
    · intro root2 hroot2
      simp only [Except.ok.injEq] at hroot2
      subst hroot2
      refine ⟨markDeleted tree, rfl, ?_⟩
      intro r hr
      have hsound := cteRun_sound table root fuel _ tree hrun (by
        intro t ht
        obtain ⟨h1, h2⟩ := List.mem_filter.mp ht
        exact Or.inl ⟨h1, by simpa using h2⟩)
      have hkeep : (∀ t ∈ table, (t.id = root ∨ IsDescendant table root t) → t.id ≠ r.id) →
          markDeleted tree r = r := by
        intro hout
        have hany : ¬ tree.any (fun t => decide (t.id = r.id)) = true := by
          rw [List.any_eq_true]
          rintro ⟨t, ht, hid⟩
          simp only [decide_eq_true_eq] at hid
          rcases hsound t ht with ⟨htm, htr⟩ | hd
          · exact hout t htm (Or.inl htr) hid
          · have htm : t ∈ table := by
              cases hd with
              | child hm _ => exact hm
              | step hm _ _ => exact hm
            exact hout t htm (Or.inr hd) hid
        simp [markDeleted, hany]
      refine ⟨?_, hkeep, ?_⟩
      · unfold markDeleted
        split_ifs
        · exact Or.inr rfl
        · exact Or.inl rfl
      · intro hnd hne hnd2
        apply hkeep
        intro t ht hclos hid
        have htr : t = r := List.inj_on_of_nodup_map hnd ht hr hid
        subst htr
        rcases hclos with h | h
        · exact hne h
        · exact hnd2 h

/-- C11, at the table in which the reply below the root was deleted earlier: the second
delete of the root returns the table of the first. -/
theorem delete_idempotent_witness :
    Postgres.DeleteComments parseCanonical 5 sampleTable
        "550e8400-e29b-41d4-a716-446655440000" =
      some ([⟨sampleID, "root", 0, none, "deleted"⟩,
         ⟨⟨sampleID.val + 1⟩, "reply", 1, some sampleID, "deleted"⟩,
         ⟨⟨sampleID.val + 2⟩, "nested", 2, some ⟨sampleID.val + 1⟩, "deleted"⟩,
         ⟨⟨5⟩, "other", 3, none, "active"⟩], none) ∧
    Postgres.DeleteComments parseCanonical 5
        [⟨sampleID, "root", 0, none, "deleted"⟩,
         ⟨⟨sampleID.val + 1⟩, "reply", 1, some sampleID, "deleted"⟩,
         ⟨⟨sampleID.val + 2⟩, "nested", 2, some ⟨sampleID.val + 1⟩, "deleted"⟩,
         ⟨⟨5⟩, "other", 3, none, "active"⟩]
        "550e8400-e29b-41d4-a716-446655440000" =
      some ([⟨sampleID, "root", 0, none, "deleted"⟩,
         ⟨⟨sampleID.val + 1⟩, "reply", 1, some sampleID, "deleted"⟩,
         ⟨⟨sampleID.val + 2⟩, "nested", 2, some ⟨sampleID.val + 1⟩, "deleted"⟩,
         ⟨⟨5⟩, "other", 3, none, "active"⟩], none) :=
  ⟨rfl, (delete_idempotent parseCanonical 5 sampleTable
    "550e8400-e29b-41d4-a716-446655440000" _ none rfl).1⟩

/-! ### Paging and ordering of the statements -/

theorem GetComments_eq_fetchQuery (cast : String → Except Error UUID)
    (upper : String → String) (fuel : Nat) (table : List Row) (parentId sortAsc : String)
    (page pageSize : Int) :
    Postgres.GetComments cast upper fuel table parentId sortAsc page pageSize =
      fetchQuery cast fuel table parentId (sqlDirection (fetchOrder upper sortAsc))
        (queryLimit pageSize) (queryOffset page pageSize) := rfl

theorem SearchComments_eq_searchQuery (lower : String → String)
    (tsMatch : String → String → Bool) (table : List Row) (text sortAsc : String)
    (page pageSize : Int) :
    Postgres.SearchComments lower tsMatch table text sortAsc page pageSize =
      searchQuery tsMatch table text (sqlDirection (searchOrder lower sortAsc))
        (queryLimit pageSize) (queryOffset page pageSize) := rfl

theorem wrapInt64_of_fits (x : Int) (h0 : 0 ≤ x) (h1 : x < 2 ^ 63) : wrapInt64 x = x := by
  unfold wrapInt64
  have h2 : (x + 2 ^ 63) % 2 ^ 64 = x + 2 ^ 63 :=
    Int.emod_eq_of_lt (by omega) (by omega)
  omega

theorem queryLimit_eq (pageSize : Int) :
    queryLimit pageSize = if 0 < pageSize then pageSize else 50 := by
  unfold queryLimit
  split_ifs <;> omega

theorem queryOffset_eq (page pageSize : Int)
    (hfit : ((if 1 ≤ page then page else 1) - 1) * (if 0 < pageSize then pageSize else 50) <
      2 ^ 63) :
    queryOffset page pageSize =
      ((if 1 ≤ page then page else 1) - 1) * (if 0 < pageSize then pageSize else 50) := by
  have hp : (if page < 1 then 1 else page) = (if 1 ≤ page then page else 1) := by
    split_ifs <;> omega
  have hs : (if pageSize ≤ 0 then 50 else pageSize) =
      (if 0 < pageSize then pageSize else 50) := by
    split_ifs <;> omega
  simp only [queryOffset, hp, hs]
  apply wrapInt64_of_fits _ _ hfit
  apply mul_nonneg
  · split_ifs <;> omega
  · split_ifs <;> omega

/-- C17, as stated, fails: with `page = 2^62` and `page_size = 4` the product
`(page - 1) * page_size` leaves the range of Go's `int`, the computed `OFFSET` is `-4`
and not `(page - 1) * 4`, and both statements are rejected by the store. -/
theorem offset_overflow_counterexample :
    queryOffset 4611686018427387904 4 = -4 ∧
    queryOffset 4611686018427387904 4 ≠ (4611686018427387904 - 1) * 4 ∧
    Postgres.GetComments parseCanonical asciiUpper 0 sampleTable "" "asc"
        4611686018427387904 4 = some (.error ⟨"OFFSET must not be negative"⟩) ∧
    Postgres.SearchComments asciiLower (fun _ _ => true) sampleTable "root" "asc"
        4611686018427387904 4 = .error ⟨"OFFSET must not be negative"⟩ :=
  ⟨by decide, by decide, rfl, rfl⟩

/-- C17 (amended): for all integers `page` and `page_size`, let `LIMIT` be `page_size`
when `page_size > 0` and 50 otherwise, and `p` be `page` when `page >= 1` and 1 otherwise.
Whenever `(p - 1) * LIMIT` is below `2^63`, the persistence fetch and the persistence
search run their statements with that `LIMIT` and with `OFFSET = (p - 1) * LIMIT`; the
`LIMIT` is as described for all arguments, and the `OFFSET` is 0 for every `page < 1`. -/
theorem page_window (cast : String → Except Error UUID) (upper lower : String → String)
    (tsMatch : String → String → Bool) (fuel : Nat) (table : List Row)
    (parentId text sortAsc : String) (page pageSize : Int)
    (hfit : ((if 1 ≤ page then page else 1) - 1) * (if 0 < pageSize then pageSize else 50) <
      2 ^ 63) :
    Postgres.GetComments cast upper fuel table parentId sortAsc page pageSize =
      fetchQuery cast fuel table parentId (sqlDirection (fetchOrder upper sortAsc))
        (if 0 < pageSize then pageSize else 50)
        (((if 1 ≤ page then page else 1) - 1) * (if 0 < pageSize then pageSize else 50)) ∧
    Postgres.SearchComments lower tsMatch table text sortAsc page pageSize =
      searchQuery tsMatch table text (sqlDirection (searchOrder lower sortAsc))
        (if 0 < pageSize then pageSize else 50)
        (((if 1 ≤ page then page else 1) - 1) * (if 0 < pageSize then pageSize else 50)) ∧
    queryLimit pageSize = (if 0 < pageSize then pageSize else 50) ∧
    (page < 1 → queryOffset page pageSize = 0) := by
  refine ⟨?_, ?_, queryLimit_eq pageSize, ?_⟩
  · rw [GetComments_eq_fetchQuery, queryLimit_eq, queryOffset_eq page pageSize hfit]
  · rw [SearchComments_eq_searchQuery, queryLimit_eq, queryOffset_eq page pageSize hfit]
  · intro hp
    rw [queryOffset_eq page pageSize hfit]
    have : ¬ 1 ≤ page := by omega
    simp [this]

/-- C17 (amended), at the second page of size 2, at a page below 1 and at a page size
below 1. -/
theorem page_window_witness :
    Postgres.GetComments parseCanonical asciiUpper 0 sampleTable "" "asc" 2 2 =
      fetchQuery parseCanonical 0 sampleTable "" Direction.asc 2 2 ∧
    Postgres.GetComments parseCanonical asciiUpper 0 sampleTable "" "asc" (-3) 0 =
      fetchQuery parseCanonical 0 sampleTable "" Direction.asc 50 0 ∧
    Postgres.SearchComments asciiLower (fun _ _ => true) sampleTable "root" "asc" 2 2 =
      searchQuery (fun _ _ => true) sampleTable "root" Direction.asc 2 2 :=
  ⟨(page_window parseCanonical asciiUpper asciiLower (fun _ _ => true) 0 sampleTable ""
      "root" "asc" 2 2 (by decide)).1,
   (page_window parseCanonical asciiUpper asciiLower (fun _ _ => true) 0 sampleTable ""
      "root" "asc" (-3) 0 (by decide)).1,
   (page_window parseCanonical asciiUpper asciiLower (fun _ _ => true) 0 sampleTable ""
      "root" "asc" 2 2 (by decide)).2.1⟩

/-- When the two case mappings agree on whether the order string spells `desc`, the fetch
and the search sort in the same direction, descending exactly in that case. -/
theorem sort_direction_of_case_agree (upper lower : String → String) (sortAsc : String)
    (hagree : upper sortAsc = "DESC" ↔ lower sortAsc = "desc") :
    sqlDirection (fetchOrder upper sortAsc) = sqlDirection (searchOrder lower sortAsc) ∧
    (sqlDirection (searchOrder lower sortAsc) = Direction.desc ↔ lower sortAsc = "desc") := by
  by_cases hl : lower sortAsc = "desc"
  · have hu := hagree.mpr hl
    simp [fetchOrder, searchOrder, sqlDirection, hl, hu]
  · have hu : ¬ upper sortAsc = "DESC" := fun h => hl (hagree.mp h)
    have h1 : sqlDirection (fetchOrder upper sortAsc) = Direction.asc := by
      simp only [fetchOrder, sqlDirection]
      by_cases ha : upper sortAsc = "ASC"
      · simp [ha]
      · simp [ha, hu]
    have h2 : sqlDirection (searchOrder lower sortAsc) = Direction.asc := by
      simp only [searchOrder, sqlDirection]
      by_cases ha : lower sortAsc = "asc"
      · simp [ha]
      · simp [ha, hl]
    simp [h1, h2, hl]

/-- C18 fails on the code: `strings.ToUpper` sends the order string `de` + U+017F + `c`
to `DESC`, and `strings.ToLower` leaves it as it is. On that string `GetComments` runs
its statement in descending order and `SearchComments` runs its statement in ascending
order. -/
theorem sort_direction_long_s (cast : String → Except Error UUID)
    (upper lower : String → String) (tsMatch : String → String → Bool) (fuel : Nat)
    (table : List Row) (parentId text : String) (page pageSize : Int)
    (hupper : upper longSDesc = "DESC") (hlower : lower longSDesc = longSDesc) :
    Postgres.GetComments cast upper fuel table parentId longSDesc page pageSize =
      fetchQuery cast fuel table parentId Direction.desc
        (queryLimit pageSize) (queryOffset page pageSize) ∧
    Postgres.SearchComments lower tsMatch table text longSDesc page pageSize =
      searchQuery tsMatch table text Direction.asc
        (queryLimit pageSize) (queryOffset page pageSize) := by
  have h1 : sqlDirection (fetchOrder upper longSDesc) = Direction.desc := by
    simp [fetchOrder, sqlDirection, hupper]
  have h2 : sqlDirection (searchOrder lower longSDesc) = Direction.asc := by
    have ha : longSDesc ≠ "asc" := by decide
    have hd : longSDesc ≠ "desc" := by decide
    simp [searchOrder, sqlDirection, hlower, ha, hd]
  rw [GetComments_eq_fetchQuery, SearchComments_eq_searchQuery, h1, h2]
  exact ⟨rfl, rfl⟩

/-- C18, on a table of three active rows: the fetch returns the newest first, the search
returns the oldest first. -/
theorem sort_direction_long_s_witness :
    simpleUpper longSDesc = "DESC" ∧ asciiLower longSDesc = longSDesc ∧
    Postgres.GetComments parseCanonical simpleUpper 0
        [⟨⟨1⟩, "a", 1, none, "active"⟩, ⟨⟨2⟩, "b", 2, none, "active"⟩,
         ⟨⟨3⟩, "c", 3, none, "active"⟩] "" longSDesc 1 10 =
      some (.ok [⟨⟨3⟩, "c", 3, none⟩, ⟨⟨2⟩, "b", 2, none⟩, ⟨⟨1⟩, "a", 1, none⟩]) ∧
    Postgres.SearchComments asciiLower (fun _ _ => true)
        [⟨⟨1⟩, "a", 1, none, "active"⟩, ⟨⟨2⟩, "b", 2, none, "active"⟩,
         ⟨⟨3⟩, "c", 3, none, "active"⟩] "a" longSDesc 1 10 =
      .ok [⟨⟨1⟩, "a", 1, none⟩, ⟨⟨2⟩, "b", 2, none⟩, ⟨⟨3⟩, "c", 3, none⟩] :=
  have h := sort_direction_long_s parseCanonical simpleUpper asciiLower (fun _ _ => true) 0
    [⟨⟨1⟩, "a", 1, none, "active"⟩, ⟨⟨2⟩, "b", 2, none, "active"⟩,
     ⟨⟨3⟩, "c", 3, none, "active"⟩] "" "a" 1 10 (by decide) (by decide)
  ⟨by decide, by decide, h.1.trans rfl, h.2.trans rfl⟩

/-! ### Results of `GetComments` and of the flat search, roots of `BuildTree`, `NewComment` -/

theorem uuidNew_ne_nil (random : Nat) : uuidNew random ≠ uuidNil := by
  intro h
  have hv := congrArg UUID.val h
  simp only [uuidNew, uuidNil] at hv
  omega

/-- C3: what `CommentService.GetComments` returns. A provider error is returned as the
error, with no forest. With an empty parent string the result is the forest that
`BuildTree(page, nil)` returns for the page the provider returns for parent `""`. With a
parent string that parses to `p`: the empty result when no row of the page has id `p`,
and otherwise exactly one node whose comment is the (first) row with id `p` and whose
children are the forest that `BuildTree(page, p)` returns. The call returns exactly when
`BuildTree` does, and it does return on every page whose parent links are acyclic. -/
theorem GetComments_result (parse : String → Except Error UUID) (db : DbProvider)
    (fuel : Nat) (parentId sortAsc : String) (page pageSize : Int) :
    (∀ e, (parentId = "" ∨ ∃ p, parse parentId = .ok p) →
      db.GetComments parentId sortAsc page pageSize = .error e →
      (CommentService.GetComments parse db fuel parentId sortAsc page pageSize).2 =
        .error e) ∧
    (∀ pg, parentId = "" → db.GetComments "" sortAsc page pageSize = .ok pg →
      (∀ T, BuildTree fuel pg none = some T →
        (CommentService.GetComments parse db fuel parentId sortAsc page pageSize).2 =
          .ok T) ∧
      (BuildTree fuel pg none = none →
        (CommentService.GetComments parse db fuel parentId sortAsc page pageSize).2 =
          .exhausted)) ∧
    (∀ p pg, parentId ≠ "" → parse parentId = .ok p →
      db.GetComments parentId sortAsc page pageSize = .ok pg →
      ((∀ c ∈ pg, c.ID ≠ p) →
        (CommentService.GetComments parse db fuel parentId sortAsc page pageSize).2 =
          .ok []) ∧
      ((∃ c ∈ pg, c.ID = p) →
        ∃ row, row ∈ pg ∧ row.ID = p ∧ pg.find? (fun c => decide (c.ID = p)) = some row ∧
          (∀ children, BuildTree fuel pg (some p) = some children →
            (CommentService.GetComments parse db fuel parentId sortAsc page pageSize).2 =
              .ok [CommentNode.mk row children]) ∧
          (BuildTree fuel pg (some p) = none →
            (CommentService.GetComments parse db fuel parentId sortAsc page pageSize).2 =
              .exhausted))) ∧
    (∀ pg (rank : UUID → Nat), (parentId = "" ∨ ∃ p, parse parentId = .ok p) →
      db.GetComments parentId sortAsc page pageSize = .ok pg →
      (∀ c ∈ pg, ∀ q, c.ParentID = some q → rank q < rank c.ID) →
      ∀ fuel2, rankBound rank pg + 1 ≤ fuel2 →
        ∃ T, (CommentService.GetComments parse db fuel2 parentId sortAsc page pageSize).2 =
          .ok T) := by
  refine ⟨?_, ?_, ?_, ?_⟩
  · intro e hwf hdb
    rcases hwf with h | ⟨p, hp⟩
    · subst h
      simp [CommentService.GetComments, hdb]
    · by_cases h : parentId = ""
      · subst h
        simp [CommentService.GetComments, hdb]
      · simp [CommentService.GetComments, h, hp, hdb]
  · intro pg h hdb
    subst h
    constructor
    · intro T hT
      simp [CommentService.GetComments, hdb, hT, Outcome.ofBuild]
    · intro hT
      simp [CommentService.GetComments, hdb, hT, Outcome.ofBuild]
  · intro p pg hne hp hdb
    constructor
    · intro hnone
      have hf : pg.find? (fun c => decide (c.ID = p)) = none := by
        rw [List.find?_eq_none]
        intro c hc
        simpa using hnone c hc
      simp [CommentService.GetComments, hne, hp, hdb, hf]
    · rintro ⟨c, hc, hcp⟩
      cases hf : pg.find? (fun c => decide (c.ID = p)) with
      | none =>
        rw [List.find?_eq_none] at hf
        exact absurd hcp (by simpa using hf c hc)
      | some row =>
        refine ⟨row, List.mem_of_find?_eq_some hf, ?_, rfl, ?_, ?_⟩
        · simpa using List.find?_some hf
        · intro children hch
          simp only [CommentService.GetComments, hne, hp, hdb, hf, hch, if_false]
        · intro hch
          simp only [CommentService.GetComments, hne, hp, hdb, hf, hch, if_false]
  · intro pg rank hwf hdb hacyc fuel2 hfuel
    have hret : ∀ P, ∃ T, BuildTree fuel2 pg P = some T := by
      intro P
      obtain ⟨T, hT⟩ := BuildTree_returns hacyc (rankBound rank pg) P (Nat.le_add_left _ _)
      exact ⟨T, BuildTree_fuel_mono pg P T _ hT fuel2 hfuel⟩
    by_cases h : parentId = ""
    · subst h
      obtain ⟨T, hT⟩ := hret none
      exact ⟨T, by simp [CommentService.GetComments, hdb, hT, Outcome.ofBuild]⟩
    · rcases hwf with h0 | ⟨p, hp⟩
      · exact absurd h0 h
      · obtain ⟨T, hT⟩ := hret (some p)
        cases hf : pg.find? (fun c => decide (c.ID = p)) with
        | none => exact ⟨[], by simp [CommentService.GetComments, h, hp, hdb, hf]⟩
        | some row =>
          exact ⟨[CommentNode.mk row T], by
            simp only [CommentService.GetComments, h, hp, hdb, hf, hT, if_false]⟩

/-- C3, on a page of three rows in which the root stands second: with the root's id as
parent the result is the root carrying its reply and the reply's reply; with the empty
parent it is the same forest, built from the rows without parent. -/
theorem GetComments_result_witness :
    (CommentService.GetComments parseCanonical (constDb threadPage) 4
        "550e8400-e29b-41d4-a716-446655440000" "asc" 1 10).2 =
      .ok [CommentNode.mk ⟨sampleID, "Root comment", 0, none⟩
        [CommentNode.mk ⟨⟨7⟩, "Child filter me", 1, some sampleID⟩
          [CommentNode.mk ⟨⟨8⟩, "Grandchild", 2, some ⟨7⟩⟩ []]]] ∧
    (CommentService.GetComments parseCanonical (constDb threadPage) 4 "" "asc" 1 10).2 =
      .ok [CommentNode.mk ⟨sampleID, "Root comment", 0, none⟩
        [CommentNode.mk ⟨⟨7⟩, "Child filter me", 1, some sampleID⟩
          [CommentNode.mk ⟨⟨8⟩, "Grandchild", 2, some ⟨7⟩⟩ []]]] := by
  have h := GetComments_result parseCanonical (constDb threadPage) 4
    "550e8400-e29b-41d4-a716-446655440000" "asc" 1 10
  have h2 := GetComments_result parseCanonical (constDb threadPage) 4 "" "asc" 1 10
  refine ⟨?_, (h2.2.1 threadPage rfl rfl).1 _ rfl⟩
  obtain ⟨row, _, _, hfind, hres, _⟩ :=
    (h.2.2.1 sampleID threadPage (by decide) rfl rfl).2
      ⟨⟨sampleID, "Root comment", 0, none⟩, by decide, rfl⟩
  have hrow : threadPage.find? (fun c => decide (c.ID = sampleID)) =
      some ⟨sampleID, "Root comment", 0, none⟩ := by decide
  rw [hrow] at hfind
  simp only [Option.some.injEq] at hfind
  subst hfind
  exact hres _ rfl

/-- C5, as stated, fails. With an empty parent string `SearchComments` builds the forest
rooted at the parent of the first match: when the provider returns a root and then a
reply to a comment that did not match, the call returns the root alone and the second
match is in no node of the forest. When two matches share an id, a reply to that id
occurs twice; and when the first match names itself as its parent, the call returns no
forest at any stack bound. -/
theorem SearchComments_flat_drops_match :
    ((CommentService.SearchComments parseCanonical asciiLower (constDb unrelatedMatches) 3
        "hello" "" "asc" 1 10).2 = .ok [CommentNode.mk ⟨⟨1⟩, "hello", 0, none⟩ []] ∧
      (⟨⟨2⟩, "hello there", 1, some ⟨9⟩⟩ : Comment) ∈ unrelatedMatches ∧
      (⟨⟨2⟩, "hello there", 1, some ⟨9⟩⟩ : Comment) ∉
        forestComments [CommentNode.mk ⟨⟨1⟩, "hello", 0, none⟩ []]) ∧
    (∃ T, (CommentService.SearchComments parseCanonical asciiLower (constDb dupFlat) 3
        "r" "" "asc" 1 10).2 = .ok T ∧
      (forestComments T).count ⟨⟨2⟩, "reply", 2, some ⟨1⟩⟩ = 2) ∧
    (∀ fuel : Nat, (CommentService.SearchComments parseCanonical asciiLower
        (constDb selfParentFlat) fuel "loop" "" "asc" 1 10).2 = .exhausted) := by
  refine ⟨⟨rfl, by decide, by decide⟩, ⟨_, rfl, by decide⟩, ?_⟩
  intro fuel
  have h := BuildTree_selfParent_none fuel
  simp only [CommentService.SearchComments, constDb, selfParentFlat, if_true] at h ⊢
  rw [h]
  rfl

/-- C5 (amended): for every query and every non-empty list of matches returned by the
provider's search, with pairwise distinct ids and acyclic parent links, the call of
`SearchComments` with an empty parent string returns a forest at every sufficiently
large stack bound; the comments occurring in it are exactly the matches whose chain of
`parent_id` links, followed through the list, ends at the `parent_id` of the first
match, each exactly once, and the first match is among them. -/
theorem SearchComments_flat_chain (parse : String → Except Error UUID)
    (lower : String → String) (db : DbProvider) (text sortAsc : String) (page pageSize : Int)
    (first : Comment) (rest : List Comment) (rank : UUID → Nat)
    (hsearch : db.SearchComments text sortAsc page pageSize = .ok (first :: rest))
    (hid : ((first :: rest).map Comment.ID).Nodup)
    (hacyc : ∀ c ∈ first :: rest, ∀ p, c.ParentID = some p → rank p < rank c.ID) :
    ∃ T, (∀ fuel, rankBound rank (first :: rest) + 1 ≤ fuel →
        (CommentService.SearchComments parse lower db fuel text "" sortAsc page pageSize).2 =
          .ok T) ∧
      (forestComments T).Nodup ∧
      (∀ c, c ∈ forestComments T ↔ ChainEndsAt (first :: rest) first.ParentID c) ∧
      first ∈ forestComments T := by
  obtain ⟨T, hT, hnd, hmem⟩ :=
    BuildTree_exact_aux hid hacyc (rankBound rank (first :: rest)) first.ParentID
      (Nat.le_add_left _ _)
  refine ⟨T, ?_, hnd, hmem, ?_⟩
  · intro fuel hfuel
    have hb := BuildTree_fuel_mono (first :: rest) first.ParentID T _ hT fuel hfuel
    simp [CommentService.SearchComments, hsearch, hb, Outcome.ofBuild]
  · exact (hmem first).mpr (ChainEndsAt.direct (List.mem_cons_self _ _) rfl)

/-- C5 (amended), on matches that form a thread: the first match is a reply, and the
forest holds it with its own reply, not the root that matched as well. -/
theorem SearchComments_flat_chain_witness :
    ∃ T, (∀ fuel, rankBound (fun u => if u = sampleID then 0 else u.val) threadPage + 1 ≤ fuel →
        (CommentService.SearchComments parseCanonical asciiLower (constDb threadPage) fuel
          "c" "" "asc" 1 10).2 = .ok T) ∧
      (forestComments T).Nodup ∧
      (∀ c, c ∈ forestComments T ↔
        ChainEndsAt threadPage (some sampleID) c) ∧
      (⟨⟨7⟩, "Child filter me", 1, some sampleID⟩ : Comment) ∈ forestComments T :=
  SearchComments_flat_chain parseCanonical asciiLower (constDb threadPage) "c" "asc" 1 10
    ⟨⟨7⟩, "Child filter me", 1, some sampleID⟩
    [⟨sampleID, "Root comment", 0, none⟩, ⟨⟨8⟩, "Grandchild", 2, some ⟨7⟩⟩]
    (fun u => if u = sampleID then 0 else u.val) rfl (by decide)
    (by
      intro c hc p hp
      simp only [List.mem_cons, List.mem_singleton, List.not_mem_nil, or_false] at hc
      rcases hc with h | h | h <;> subst h <;> simp at hp <;> subst hp <;> decide)

/-- What a returned forest looks like, at any stack bound: the roots are the elements
with parent `P` in input order, and every node at any depth has as children what
`BuildTree` returns for the node's id. -/
theorem BuildTree_shape (F : List Comment) (P : Option UUID) (fuel : Nat)
    (T : List CommentNode) (h : BuildTree fuel F P = some T) :
    T.map CommentNode.comment = F.filter (fun c => decide (c.ParentID = P)) ∧
    ∀ n ∈ forestSubnodes T,
      n.Children.map CommentNode.comment =
        F.filter (fun c => decide (c.ParentID = some n.comment.ID)) ∧
      ∃ k, k < fuel ∧ BuildTree k F (some n.comment.ID) = some n.Children := by
  have hroots : ∀ (fuel : Nat) (Q : Option UUID) (T : List CommentNode),
      BuildTree fuel F Q = some T →
      T.map CommentNode.comment = F.filter (fun c => decide (c.ParentID = Q)) := by
    intro fuel Q T h
    cases fuel with
    | zero => simp [BuildTree] at h
    | succ k =>
      rw [BuildTree] at h
      exact (buildLoop_shape _ Q F T h).1
  refine ⟨hroots fuel P T h, ?_⟩
  intro n hn
  obtain ⟨k, hk, hres⟩ := BuildTree_every_node F fuel P T h n hn
  exact ⟨hroots k _ _ hres, k, hk, hres⟩

/-- C12, as stated, fails: on the sequence whose only element names itself as its
parent, that element has `parent_id` equal to `P`, yet `BuildTree(F, P)` returns no
forest at any stack bound, so it has no roots. -/
theorem BuildTree_roots_counterexample :
    (⟨⟨1⟩, "loop", 0, some ⟨1⟩⟩ : Comment) ∈
      selfParentFlat.filter (fun c => decide (c.ParentID = some ⟨1⟩)) ∧
    ¬ ∃ (fuel : Nat) (T : List CommentNode),
      BuildTree fuel selfParentFlat (some ⟨1⟩) = some T := by
  refine ⟨by decide, ?_⟩
  rintro ⟨fuel, T, h⟩
  rw [BuildTree_selfParent_none fuel] at h
  exact Option.noConfusion h

/-- C12 (amended): for every flat sequence `F` whose parent links are acyclic (some rank
strictly increases from every parent to its child) and every parent `P`, `BuildTree(F, P)`
returns a forest, the same at every sufficiently large stack bound. Its root comments
are exactly the elements of `F` whose `parent_id` equals `P` (as optional identifiers:
absent equals absent only), in the order of `F`; and every node `n` of the forest, at
any depth, has as children what `BuildTree(F, n.id)` returns, whose comments are the
elements of `F` with `parent_id` equal to `n.id`, in the order of `F`. -/
theorem BuildTree_roots_children (F : List Comment) (P : Option UUID) (rank : UUID → Nat)
    (hacyc : ∀ c ∈ F, ∀ p, c.ParentID = some p → rank p < rank c.ID) :
    ∃ T, (∀ fuel, rankBound rank F + 1 ≤ fuel → BuildTree fuel F P = some T) ∧
      T.map CommentNode.comment = F.filter (fun c => decide (c.ParentID = P)) ∧
      ∀ n ∈ forestSubnodes T,
        n.Children.map CommentNode.comment =
          F.filter (fun c => decide (c.ParentID = some n.comment.ID)) ∧
        ∀ fuel, rankBound rank F + 1 ≤ fuel →
          BuildTree fuel F (some n.comment.ID) = some n.Children := by
  obtain ⟨T, hT⟩ := BuildTree_returns hacyc (rankBound rank F) P (Nat.le_add_left _ _)
  obtain ⟨hroots, hnodes⟩ := BuildTree_shape F P _ T hT
  refine ⟨T, BuildTree_fuel_mono F P T _ hT, hroots, ?_⟩
  intro n hn
  obtain ⟨hch, k, hk, hres⟩ := hnodes n hn
  exact ⟨hch, fun fuel hfuel => BuildTree_fuel_mono F _ _ k hres fuel (by omega)⟩

/-- C12 (amended), at the flat sequence of `TestBuildTree`. -/
theorem BuildTree_roots_children_witness :
    (∀ c ∈ testFlat, ∀ p, c.ParentID = some p → UUID.val p < UUID.val c.ID) ∧
    ∃ T, (∀ fuel, rankBound UUID.val testFlat + 1 ≤ fuel →
        BuildTree fuel testFlat none = some T) ∧
      T.map CommentNode.comment =
        [⟨⟨1⟩, "Root comment", 0, none⟩, ⟨⟨3⟩, "Another root comment", 2, none⟩] ∧
      ∀ n ∈ forestSubnodes T,
        n.Children.map CommentNode.comment =
          testFlat.filter (fun c => decide (c.ParentID = some n.comment.ID)) ∧
        ∀ fuel, rankBound UUID.val testFlat + 1 ≤ fuel →
          BuildTree fuel testFlat (some n.comment.ID) = some n.Children :=
  have hacyc : ∀ c ∈ testFlat, ∀ p, c.ParentID = some p → UUID.val p < UUID.val c.ID := by
    intro c hc p hp
    simp only [testFlat, List.mem_cons, List.mem_singleton, List.not_mem_nil, or_false] at hc
    rcases hc with h | h | h <;> subst h <;> simp at hp
    subst hp
    decide
  ⟨hacyc, BuildTree_roots_children testFlat none UUID.val hacyc⟩

/-- C15: for every non-empty text and every parent string that is empty or accepted by
`uuid.Parse`, `NewComment` succeeds; the comment has the input text, the time of the
call, no parent when the parent string is empty and the parsed identifier otherwise, and
its id is the identifier generated by `uuid.New()` from the random bytes, which is never
`uuid.Nil`. -/
theorem NewComment_success (parse : String → Except Error UUID) (random : Nat) (now : Int)
    (parentid text : String) (htext : text ≠ "")
    (hparent : parentid = "" ∨ ∃ u, parse parentid = .ok u) :
    ∃ c, NewComment parse (uuidNew random) now parentid text = .ok c ∧
      c.Text = text ∧ c.CreatedAt = now ∧ c.ID = uuidNew random ∧ c.ID ≠ uuidNil ∧
      (parentid = "" → c.ParentID = none) ∧
      (∀ u, parentid ≠ "" → parse parentid = .ok u → c.ParentID = some u) := by
  unfold NewComment
  by_cases hp : parentid = ""
  · subst hp
    exact ⟨⟨uuidNew random, text, now, none⟩, by simp [htext], rfl, rfl, rfl,
      uuidNew_ne_nil random, fun _ => rfl, fun u h => absurd rfl h⟩
  · rcases hparent with h | ⟨u, hu⟩
    · exact absurd h hp
    · refine ⟨⟨uuidNew random, text, now, some u⟩, by simp [hp, hu, htext], rfl, rfl, rfl,
        uuidNew_ne_nil random, fun h => absurd h hp, ?_⟩
      intro v _ hv
      rw [hu] at hv
      simp only [Except.ok.injEq] at hv
      rw [hv]

/-- C15, at the two successful calls of `TestNewComment`, with all random bytes zero. -/
theorem NewComment_success_witness :
    (∃ c, NewComment parseCanonical (uuidNew 0) 7 "" "Hello, world!" = .ok c ∧
      c.Text = "Hello, world!" ∧ c.ParentID = none ∧
      c.ID = ⟨0x00000000000040008000000000000000⟩ ∧ c.ID ≠ uuidNil) ∧
    (∃ c, NewComment parseCanonical (uuidNew 0) 7 "550e8400-e29b-41d4-a716-446655440000"
        "Reply to comment" = .ok c ∧
      c.Text = "Reply to comment" ∧ c.ParentID = some sampleID ∧ c.ID ≠ uuidNil) := by
  obtain ⟨c, h1, h2, _, h4, h5, h6, _⟩ :=
    NewComment_success parseCanonical 0 7 "" "Hello, world!" (by decide) (Or.inl rfl)
  obtain ⟨d, k1, k2, _, _, k5, _, k7⟩ :=
    NewComment_success parseCanonical 0 7 "550e8400-e29b-41d4-a716-446655440000"
      "Reply to comment" (by decide) (Or.inr ⟨sampleID, rfl⟩)
  exact ⟨⟨c, h1, h2, h6 rfl, h4.trans (by decide), h5⟩,
    ⟨d, k1, k2, k7 sampleID (by decide) rfl, k5⟩⟩

end CommentTree
